import Mathlib

/-!
CustomPlayer: subtitle-driven repeat controller and SRT timing parser.

A shallow embedding of `src/main.cpp`.

* `std::string` is a `List Char`, one element per `char`.
* `long long`, `libvlc_time_t` and `int` values are mathematical integers (`Int`).
  No operation of the program can leave the machine range on the inputs it can
  receive: see `stoll_abs_lt`, `timeToMs_abs_lt` and `loopBody_int_range`.
* A thrown C++ exception is the `Except.error` result.
* Undefined behaviour (an out-of-range `operator[]`) is the `none` result.
* The media player is the environment: each loop iteration observes what
  `libvlc_media_player_is_playing` and `libvlc_media_player_get_time` answer,
  and the calls of `libvlc_media_player_set_time` are recorded.
-/

namespace CustomPlayer

/-! ## Data model -/

/-- One subtitle entry (`struct SubtitleItem`). -/
structure SubtitleItem where
  startTimeMs : Int
  endTimeMs : Int
  deriving DecidableEq, Repr

/-- The two loop variables of `main`: `currentSubtitleIndex` and `currentRepeat`. -/
structure LoopState where
  currentSubtitleIndex : Int
  currentRepeat : Int
  deriving DecidableEq, Repr

/-- What the player answers in one loop iteration: the result of
`libvlc_media_player_is_playing` and the result of `libvlc_media_player_get_time`
(the latter is only asked for when the loop condition holds). -/
structure PlayerObs where
  isPlaying : Bool
  currentTime : Int
  deriving DecidableEq, Repr

/-- One executed loop iteration: the position that was read, the loop variables after
the iteration and the argument of `libvlc_media_player_set_time` if it was called. -/
structure TickRecord where
  currentTime : Int
  after : LoopState
  seek : Option Int
  deriving DecidableEq, Repr

/-- Outcome of running the `while` loop over a finite list of player observations:
the executed iterations, the loop variables at the end, and whether the loop condition
was found false (`exited = true`) or the observations ran out first. -/
structure LoopResult where
  ticks : List TickRecord
  final : LoopState
  exited : Bool
  deriving DecidableEq, Repr

/-! ## The control loop of `main` (lines 114-138) -/

/-- Conversion of an `int` to `size_t` (64-bit), as done by the usual arithmetic
conversions in `currentSubtitleIndex < subtitles.size()` and by `operator[]`. -/
def toSizeT (i : Int) : Nat := (i % 2 ^ 64).toNat

/-- Initial loop variables: `currentSubtitleIndex = 0`, `currentRepeat = 0`. -/
def initState : LoopState := ⟨0, 0⟩

/-- Loop condition
`libvlc_media_player_is_playing(media_player) && currentSubtitleIndex < subtitles.size()`. -/
def loopCond (subtitles : List SubtitleItem) (playing : Bool) (st : LoopState) : Bool :=
  playing && decide (toSizeT st.currentSubtitleIndex < subtitles.length)

/-- The `if (currentTime > currentSub.endTimeMs) { ... }` statement of the loop body,
for the entry `currentSub`. Returns the new loop variables and the `set_time` call made. -/
def tick (userRepeatCount : Int) (currentSub : SubtitleItem) (currentTime : Int)
    (st : LoopState) : LoopState × Option Int :=
  if currentTime > currentSub.endTimeMs then
    if userRepeatCount > 0 ∧ st.currentRepeat < userRepeatCount then
      (⟨st.currentSubtitleIndex, st.currentRepeat + 1⟩, some currentSub.startTimeMs)
    else
      (⟨st.currentSubtitleIndex + 1, 0⟩, none)
  else
    (st, none)

/-- The loop body: fetch `subtitles[currentSubtitleIndex]`, then `tick`.
`none` stands for an out-of-range access. -/
def loopBody (userRepeatCount : Int) (subtitles : List SubtitleItem) (currentTime : Int)
    (st : LoopState) : Option (LoopState × Option Int) :=
  match subtitles[toSizeT st.currentSubtitleIndex]? with
  | none => none
  | some currentSub => some (tick userRepeatCount currentSub currentTime st)

/-- The `while` loop, driven by the observations the player gives, one per evaluation
of the loop condition. -/
def mainLoop (userRepeatCount : Int) (subtitles : List SubtitleItem) :
    List PlayerObs → LoopState → Option LoopResult
  | [], st => some ⟨[], st, false⟩
  | o :: os, st =>
    if loopCond subtitles o.isPlaying st then
      match loopBody userRepeatCount subtitles o.currentTime st with
      | none => none
      | some (st', seek) =>
        match mainLoop userRepeatCount subtitles os st' with
        | none => none
        | some r => some ⟨⟨o.currentTime, st', seek⟩ :: r.ticks, r.final, r.exited⟩
    else
      some ⟨[], st, true⟩

/-! ## The C++ library functions used by the parser -/

/-- The exceptions the library functions used here can throw; both derive from
`std::exception`. -/
inductive StdException where
  | out_of_range
  | invalid_argument
  deriving DecidableEq, Repr

deriving instance DecidableEq for Except

/-- The function `isspace` of the "C" locale: space, `\t`, `\n`, `\v`, `\f`, `\r`. -/
def isspace (c : Char) : Bool :=
  c = ' ' || c = '\t' || c = '\n' || c = '\x0b' || c = '\x0c' || c = '\r'

/-- Value of a decimal digit character. -/
def digitVal (c : Char) : Nat := c.toNat - 48

/-- Value of a run of decimal digits, most significant first. -/
def digitsVal (ds : List Char) : Nat := ds.foldl (fun acc c => 10 * acc + digitVal c) 0

/-- The call `std::string::substr(pos, len)`: throws `std::out_of_range` when
`pos > size()`, otherwise the characters from `pos`, at most `len` of them. -/
def substr (s : List Char) (pos len : Nat) : Except StdException (List Char) :=
  if pos > s.length then .error .out_of_range else .ok ((s.drop pos).take len)

/-- The sign part of `strtoll`: an optional single `-` or `+`. Returns whether the
number is negated and the rest of the input. -/
def takeSign (s : List Char) : Bool × List Char :=
  if s.head? = some '-' then (true, s.tail)
  else if s.head? = some '+' then (false, s.tail)
  else (false, s)

/-- The call `std::stoll(str)` (base 10): skip leading white space, read an optional sign
and the longest run of decimal digits, ignore what follows. Throws
`std::invalid_argument` when there is no digit and `std::out_of_range` when the value
does not fit a `long long`. -/
def stoll (str : List Char) : Except StdException Int :=
  let sgn := takeSign (str.dropWhile isspace)
  let ds := sgn.2.takeWhile Char.isDigit
  if ds = [] then .error .invalid_argument
  else
    let v : Int := if sgn.1 then -(digitsVal ds : Int) else (digitsVal ds : Int)
    if v < -(2 : Int) ^ 63 ∨ v > (2 : Int) ^ 63 - 1 then .error .out_of_range else .ok v

/-- The call `s.find(pat)`: the first position at which `pat` occurs in `s`, `none` for
`std::string::npos`. -/
def find : List Char → List Char → Option Nat
  | [], pat => if pat = [] then some 0 else none
  | c :: cs, pat =>
    if pat.isPrefixOf (c :: cs) then some 0 else (find cs pat).map (· + 1)

/-- The lines that successive `std::getline(file, line)` calls deliver for a file with
the given content, until `getline` fails: the content is cut at every `\n`, the `\n`
is dropped, and a last line without `\n` is delivered if it is not empty. -/
def getlines : List Char → List (List Char)
  | [] => []
  | c :: cs =>
    if c = '\n' then [] :: getlines cs
    else
      match getlines cs with
      | [] => [[c]]
      | l :: ls => (c :: l) :: ls

/-! ## The parser (lines 18-55) -/

/-- The `try` block of `timeToMs`. -/
def timeToMsTry (timeStr : List Char) : Except StdException Int := do
  let hStr ← substr timeStr 0 2
  let h ← stoll hStr
  let mStr ← substr timeStr 3 2
  let m ← stoll mStr
  let sStr ← substr timeStr 6 2
  let s ← stoll sStr
  let msStr ← substr timeStr 9 3
  let ms ← stoll msStr
  pure (h * 3600000 + m * 60000 + s * 1000 + ms)

/-- The function `timeToMs`: the `try` block, and `0` from the handler
`catch (const std::exception&)`. -/
def timeToMs (timeStr : List Char) : Int :=
  match timeToMsTry timeStr with
  | .ok v => v
  | .error _ => 0

/-- The range separator looked for by `parseSrt`. -/
def arrow : List Char := ['-', '-', '>']

/-- The `while (std::getline(file, line))` loop of `parseSrt` over the lines still to be
read, with the vector `subtitles` built so far. The two `line.substr` calls are outside
any `try`, so what they throw leaves `parseSrt`. -/
def parseLoop : List (List Char) → List SubtitleItem → Except StdException (List SubtitleItem)
  | [], subtitles => .ok subtitles
  | line :: rest, subtitles =>
    if (find line arrow).isSome then do
      let startTimeStr ← substr line 0 12
      let endTimeStr ← substr line 17 12
      parseLoop rest (subtitles ++ [⟨timeToMs startTimeStr, timeToMs endTimeStr⟩])
    else
      parseLoop rest subtitles

/-- The function `parseSrt`. The argument is the content of the file named `filename`,
`none` when the file cannot be opened. -/
def parseSrt (file : Option (List Char)) : Except StdException (List SubtitleItem) :=
  match file with
  | none => .ok []
  | some content => parseLoop (getlines content) []

/-- Observations of a player that keeps playing and reports the given positions. -/
def playingAt (positions : List Int) : List PlayerObs :=
  positions.map (fun t => ⟨true, t⟩)

/-! ## The session: `main` (lines 58-148) -/

/-- The calls `main` makes to the playback engine. -/
inductive PlayerOp where
  | libvlc_new
  | libvlc_media_new_path
  | libvlc_media_add_option
  | libvlc_media_player_new_from_media
  | libvlc_media_release
  | libvlc_media_player_play
  | libvlc_media_player_is_playing
  | libvlc_media_player_get_time
  | libvlc_media_player_set_time (time : Int)
  | libvlc_media_player_stop
  | libvlc_media_player_release
  | libvlc_release
  deriving DecidableEq, Repr

/-- How a session ends: `main` returns a status; or an exception leaves `main` uncaught;
or the given observations run out while the loop is still running; or an out-of-range
access was made. Each with the engine calls made so far, in order. -/
inductive Outcome where
  | returned (status : Int) (calls : List PlayerOp)
  | uncaught (e : StdException) (calls : List PlayerOp)
  | running (calls : List PlayerOp)
  | undefined
  deriving DecidableEq, Repr

/-- The engine calls of an outcome. -/
def Outcome.calls : Outcome → List PlayerOp
  | .returned _ calls => calls
  | .uncaught _ calls => calls
  | .running calls => calls
  | .undefined => []

/-- The engine calls of one executed loop iteration: the loop condition asks
`is_playing`, the body asks `get_time` and, in the repeat branch, calls `set_time`. -/
def tickCalls (k : TickRecord) : List PlayerOp :=
  [.libvlc_media_player_is_playing, .libvlc_media_player_get_time] ++
    (match k.seek with
     | some t => [.libvlc_media_player_set_time t]
     | none => [])

/-- The engine calls of a run of the loop: those of its iterations and, when the loop
condition was found false, the `is_playing` call of that last evaluation. -/
def loopCalls (r : LoopResult) : List PlayerOp :=
  r.ticks.flatMap tickCalls ++
    (if r.exited then [.libvlc_media_player_is_playing] else [])

/-- The function `main`. Its inputs: the content of the subtitle file (`none` when it
cannot be opened), the repeat count read from the terminal, whether `libvlc_new` and
`libvlc_media_new_path` give a non-null handle, and what the player answers in the loop. -/
def main (file : Option (List Char)) (userRepeatCount : Int) (vlcInstOk mediaOk : Bool)
    (obs : List PlayerObs) : Outcome :=
  match parseSrt file with
  | .error e => .uncaught e []
  | .ok subtitles =>
    if subtitles.isEmpty then .returned 1 []
    else if !vlcInstOk then .returned 1 [.libvlc_new]
    else if !mediaOk then
      .returned 1 [.libvlc_new, .libvlc_media_new_path, .libvlc_release]
    else
      let setup : List PlayerOp :=
        [.libvlc_new, .libvlc_media_new_path, .libvlc_media_add_option,
          .libvlc_media_player_new_from_media, .libvlc_media_release,
          .libvlc_media_player_play]
      match mainLoop userRepeatCount subtitles obs initState with
      | none => .undefined
      | some r =>
        if r.exited then
          .returned 0 (setup ++ loopCalls r ++
            [.libvlc_media_player_stop, .libvlc_media_player_release, .libvlc_release])
        else .running (setup ++ loopCalls r)

/-- The loop body for the entry `currentSub` with the fate of the seek made explicit:
`seekAccepted` tells whether the player carries out the `set_time` request. The call
`libvlc_media_player_set_time` is a statement whose outcome the program does not look at,
and `currentRepeat++` follows it unconditionally. Returns the new loop variables and the
request made together with its fate. -/
def tickSeek (seekAccepted : Bool) (userRepeatCount : Int) (currentSub : SubtitleItem)
    (currentTime : Int) (st : LoopState) : LoopState × Option (Int × Bool) :=
  if currentTime > currentSub.endTimeMs then
    if userRepeatCount > 0 ∧ st.currentRepeat < userRepeatCount then
      (⟨st.currentSubtitleIndex, st.currentRepeat + 1⟩,
        some (currentSub.startTimeMs, seekAccepted))
    else
      (⟨st.currentSubtitleIndex + 1, 0⟩, none)
  else
    (st, none)

/-- The arguments of the `set_time` calls of a run, in order. -/
def seeksOf (r : LoopResult) : List Int := r.ticks.filterMap (fun k => k.seek)

/-- The arguments of the `set_time` calls a run makes while the index is `c`, in order. -/
def seeksAt (c : Int) (r : LoopResult) : List Int :=
  (r.ticks.filter (fun k => decide (k.after.currentSubtitleIndex = c))).filterMap
    (fun k => k.seek)

/-! ## Facts about the control loop -/

theorem toSizeT_of_nonneg {i : Int} (h0 : 0 ≤ i) (h1 : i < 2 ^ 64) : toSizeT i = i.toNat := by
  unfold toSizeT
  rw [Int.emod_eq_of_lt h0 h1]

/-- When the loop condition holds the access `subtitles[currentSubtitleIndex]` is in range. -/
theorem loopBody_of_loopCond {L : Int} {subtitles : List SubtitleItem} {playing : Bool}
    {st : LoopState} (t : Int) (h : loopCond subtitles playing st = true) :
    ∃ seg, subtitles[toSizeT st.currentSubtitleIndex]? = some seg ∧
      loopBody L subtitles t st = some (tick L seg t st) := by
  simp only [loopCond, Bool.and_eq_true, decide_eq_true_eq] at h
  refine ⟨subtitles[toSizeT st.currentSubtitleIndex], List.getElem?_eq_getElem h.2, ?_⟩
  simp [loopBody, List.getElem?_eq_getElem h.2]

/-- The loop never runs into the out-of-range access: it always has a result. -/
theorem mainLoop_isSome (L : Int) (subtitles : List SubtitleItem) (obs : List PlayerObs) :
    ∀ st, ∃ r, mainLoop L subtitles obs st = some r := by
  induction obs with
  | nil => intro st; exact ⟨_, rfl⟩
  | cons o os ih =>
    intro st
    by_cases hc : loopCond subtitles o.isPlaying st = true
    · obtain ⟨seg, _, hb⟩ := loopBody_of_loopCond (L := L) o.currentTime hc
      obtain ⟨r, hr⟩ := ih (tick L seg o.currentTime st).1
      simp [mainLoop, hc, hb, hr]
    · simp [mainLoop, hc]

/-- Unfolding of one executed iteration. -/
theorem mainLoop_cons_of_cond {L : Int} {subtitles : List SubtitleItem} (o : PlayerObs)
    {os : List PlayerObs} (st : LoopState) {seg : SubtitleItem}
    (hseg : subtitles[toSizeT st.currentSubtitleIndex]? = some seg)
    (hp : o.isPlaying = true) {r : LoopResult}
    (hr : mainLoop L subtitles os (tick L seg o.currentTime st).1 = some r) :
    mainLoop L subtitles (o :: os) st =
      some ⟨⟨o.currentTime, (tick L seg o.currentTime st).1, (tick L seg o.currentTime st).2⟩
        :: r.ticks, r.final, r.exited⟩ := by
  have hlt : toSizeT st.currentSubtitleIndex < subtitles.length := by
    by_contra hge
    rw [List.getElem?_eq_none (Nat.le_of_not_lt hge)] at hseg
    cases hseg
  have hc : loopCond subtitles o.isPlaying st = true := by simp [loopCond, hp, hlt]
  simp [mainLoop, hc, loopBody, hseg, hr]

theorem tick_advance {L : Int} {seg : SubtitleItem} {t : Int} {st : LoopState}
    (ht : t > seg.endTimeMs) (h : ¬ (L > 0 ∧ st.currentRepeat < L)) :
    tick L seg t st = (⟨st.currentSubtitleIndex + 1, 0⟩, none) := by
  simp only [tick, ht, if_true, h, if_false]

theorem tick_repeat {L : Int} {seg : SubtitleItem} {t : Int} {st : LoopState}
    (ht : t > seg.endTimeMs) (h0 : L > 0) (h1 : st.currentRepeat < L) :
    tick L seg t st =
      (⟨st.currentSubtitleIndex, st.currentRepeat + 1⟩, some seg.startTimeMs) := by
  simp only [tick, ht, if_true, h0, h1, and_self]

theorem tick_noop {L : Int} {seg : SubtitleItem} {t : Int} {st : LoopState}
    (ht : t ≤ seg.endTimeMs) : tick L seg t st = (st, none) := by
  have : ¬ t > seg.endTimeMs := not_lt.mpr ht
  simp only [tick, this, if_false]

/-- With `k` repeats done and `j` still allowed, `j + 1` polls past the end of the entry
give `j` repeats and then the advance. -/
theorem repeat_run (L : Int) (subtitles : List SubtitleItem) (seg : SubtitleItem) (idx : Int)
    (hseg : subtitles[toSizeT idx]? = some seg) :
    ∀ (j : Nat) (k : Int) (positions : List Int), 0 ≤ k → k + j = L →
      positions.length = j + 1 → (∀ t ∈ positions, t > seg.endTimeMs) →
      ∃ r, mainLoop L subtitles (playingAt positions) ⟨idx, k⟩ = some r ∧
        r.ticks.map (fun x => (x.after, x.seek)) =
          (List.range j).map
              (fun (i : Nat) => ((⟨idx, k + (i : Int) + 1⟩ : LoopState), some seg.startTimeMs))
            ++ [(⟨idx + 1, 0⟩, none)] ∧
        r.final = ⟨idx + 1, 0⟩ ∧ r.exited = false := by
  intro j
  induction j with
  | zero =>
    intro k positions _ hk hlen hpos
    match positions, hlen with
    | [t], _ =>
      have ht : t > seg.endTimeMs := hpos t (by simp)
      have hno : ¬ (L > 0 ∧ (⟨idx, k⟩ : LoopState).currentRepeat < L) := by
        simp only [not_and, not_lt]; intro _; simp at hk; omega
      have hr : mainLoop L subtitles [] (tick L seg t ⟨idx, k⟩).1
          = some ⟨[], (tick L seg t ⟨idx, k⟩).1, false⟩ := rfl
      have h := mainLoop_cons_of_cond ⟨true, t⟩ ⟨idx, k⟩ hseg rfl hr
      refine ⟨_, h, ?_⟩
      simp [tick_advance ht hno]
  | succ j ih =>
    intro k positions hk0 hk hlen hpos
    match positions, hlen with
    | t :: ps, hlen =>
      have ht : t > seg.endTimeMs := hpos t (by simp)
      have hL : L > 0 := by push_cast at hk; omega
      have hlt : (⟨idx, k⟩ : LoopState).currentRepeat < L := by
        show k < L; push_cast at hk; omega
      have htick := tick_repeat ht hL hlt
      obtain ⟨r, hr, hticks, hfin, hex⟩ := ih (k + 1) ps (by omega)
        (by push_cast at hk; omega) (by simpa using hlen)
        (fun u hu => hpos u (List.mem_cons_of_mem _ hu))
      have hr' : mainLoop L subtitles (playingAt ps) (tick L seg t ⟨idx, k⟩).1 = some r := by
        rw [htick]; exact hr
      have h := mainLoop_cons_of_cond ⟨true, t⟩ ⟨idx, k⟩ hseg rfl hr'
      refine ⟨_, h, ?_, hfin, hex⟩
      simp only [List.map_cons, htick, hticks, List.range_succ_eq_map, List.map_map,
        List.cons_append, List.cons.injEq, true_and]
      simp only [Nat.cast_zero, add_zero, true_and, List.append_cancel_right_eq]
      apply List.map_congr_left
      intro i _
      simp only [Function.comp, Nat.succ_eq_add_one, Nat.cast_add, Nat.cast_one]
      congr 2
      ring

/-- C1 (repeat-then-advance): with repeat limit `L > 0`, at an entry `seg` with no repeat
done yet, `L + 1` ticks whose positions are all past `seg.endTimeMs` are: `L` repeats, the
`i`-th of which seeks to `seg.startTimeMs`, leaves the index and makes the repeat counter
`i`, followed by one advance (index + 1, counter 0, no seek). -/
theorem repeat_then_advance (L : Int) (hL : 0 < L) (subtitles : List SubtitleItem)
    (seg : SubtitleItem) (st : LoopState)
    (hseg : subtitles[toSizeT st.currentSubtitleIndex]? = some seg)
    (hrep : st.currentRepeat = 0) (positions : List Int)
    (hlen : positions.length = L.toNat + 1)
    (hpos : ∀ t ∈ positions, t > seg.endTimeMs) :
    ∃ r, mainLoop L subtitles (playingAt positions) st = some r ∧
      r.ticks.map (fun x => (x.after, x.seek)) =
        (List.range L.toNat).map
            (fun (i : Nat) => ((⟨st.currentSubtitleIndex, (i : Int) + 1⟩ : LoopState),
              some seg.startTimeMs))
          ++ [(⟨st.currentSubtitleIndex + 1, 0⟩, none)] ∧
      r.final = ⟨st.currentSubtitleIndex + 1, 0⟩ := by
  obtain ⟨idx, k⟩ := st
  simp only at hrep hseg
  subst hrep
  obtain ⟨r, hr, hticks, hfin, _⟩ := repeat_run L subtitles seg idx hseg L.toNat 0 positions
    (le_refl _) (by rw [Int.toNat_of_nonneg hL.le]; simp) hlen hpos
  refine ⟨r, hr, ?_, hfin⟩
  simpa using hticks

/-- Witness for C1: limit 2 and the entry `[1000, 2000]`; three polls at 2500 give
repeat #1, repeat #2 (both seek to 1000) and the advance; with the poll at 500 in front
the first tick is a no-op. -/
theorem repeat_then_advance_witness :
    (∃ r, mainLoop 2 [⟨1000, 2000⟩] (playingAt [2500, 2500, 2500]) ⟨0, 0⟩ = some r ∧
      r.ticks.map (fun x => (x.after, x.seek)) =
        (List.range (2 : Int).toNat).map
            (fun (i : Nat) => ((⟨0, (i : Int) + 1⟩ : LoopState), some (1000 : Int)))
          ++ [(⟨0 + 1, 0⟩, none)] ∧
      r.final = ⟨0 + 1, 0⟩) ∧
    mainLoop 2 [⟨1000, 2000⟩] (playingAt [500, 2500, 2500, 2500]) initState
      = some ⟨[⟨500, ⟨0, 0⟩, none⟩, ⟨2500, ⟨0, 1⟩, some 1000⟩, ⟨2500, ⟨0, 2⟩, some 1000⟩,
               ⟨2500, ⟨1, 0⟩, none⟩], ⟨1, 0⟩, false⟩ :=
  ⟨repeat_then_advance 2 (by decide) [⟨1000, 2000⟩] ⟨1000, 2000⟩ ⟨0, 0⟩ (by decide) rfl
      [2500, 2500, 2500] (by decide) (by decide),
    by decide⟩

/-- One tick never lowers the index; when it raises it, by one and with the counter reset. -/
theorem tick_index_step (L : Int) (seg : SubtitleItem) (t : Int) (st : LoopState) :
    st.currentSubtitleIndex ≤ (tick L seg t st).1.currentSubtitleIndex ∧
    (st.currentSubtitleIndex < (tick L seg t st).1.currentSubtitleIndex →
      (tick L seg t st).1.currentSubtitleIndex = st.currentSubtitleIndex + 1 ∧
      (tick L seg t st).1.currentRepeat = 0) := by
  unfold tick
  split_ifs <;> simp

/-- C2 (monotonic cursor): for every timeline, repeat limit, start state and sequence of
player observations the loop has a result, and along the states after each tick the index
never decreases; whenever it increases, it increases by exactly 1 and the repeat counter
is 0 afterwards. -/
theorem cursor_monotonic (L : Int) (subtitles : List SubtitleItem) (obs : List PlayerObs)
    (st : LoopState) :
    ∃ r, mainLoop L subtitles obs st = some r ∧
      List.Chain
        (fun a b : LoopState => a.currentSubtitleIndex ≤ b.currentSubtitleIndex ∧
          (a.currentSubtitleIndex < b.currentSubtitleIndex →
            b.currentSubtitleIndex = a.currentSubtitleIndex + 1 ∧ b.currentRepeat = 0))
        st (r.ticks.map (fun k => k.after)) := by
  induction obs generalizing st with
  | nil => exact ⟨_, rfl, by simp [List.Chain.nil]⟩
  | cons o os ih =>
    by_cases hc : loopCond subtitles o.isPlaying st = true
    · obtain ⟨seg, _, hb⟩ := loopBody_of_loopCond (L := L) o.currentTime hc
      obtain ⟨r, hr, hchain⟩ := ih (tick L seg o.currentTime st).1
      refine ⟨⟨⟨o.currentTime, (tick L seg o.currentTime st).1,
        (tick L seg o.currentTime st).2⟩ :: r.ticks, r.final, r.exited⟩, ?_, ?_⟩
      · simp [mainLoop, hc, hb, hr]
      · simp only [List.map_cons]
        exact List.Chain.cons (tick_index_step L seg o.currentTime st) hchain
    · refine ⟨⟨[], st, true⟩, ?_, ?_⟩
      · simp [mainLoop, hc]
      · simp [List.Chain.nil]

/-- C3 (boundary inclusivity): a tick at a position `≤ endTimeMs` (so also `= endTimeMs`)
changes nothing and seeks nowhere; a tick at a position `> endTimeMs` is the repeat or the
advance transition, and the loop variables after it differ from those before. -/
theorem boundary_inclusive (L : Int) (seg : SubtitleItem) (t : Int) (st : LoopState) :
    (t ≤ seg.endTimeMs → tick L seg t st = (st, none)) ∧
    (t > seg.endTimeMs →
      (tick L seg t st =
          (⟨st.currentSubtitleIndex, st.currentRepeat + 1⟩, some seg.startTimeMs) ∨
        tick L seg t st = (⟨st.currentSubtitleIndex + 1, 0⟩, none)) ∧
      (tick L seg t st).1 ≠ st) := by
  refine ⟨fun h => tick_noop h, fun h => ?_⟩
  obtain ⟨i, k⟩ := st
  by_cases hr : L > 0 ∧ k < L
  · rw [tick_repeat h hr.1 hr.2]
    refine ⟨Or.inl rfl, ?_⟩
    intro he
    have := congrArg LoopState.currentRepeat he
    simp at this
  · rw [tick_advance h hr]
    refine ⟨Or.inr rfl, ?_⟩
    intro he
    have := congrArg LoopState.currentSubtitleIndex he
    simp at this

/-- Witness for C3: the entry `[1000, 2000]` with limit 2; position 2000 is a no-op,
position 2001 is a repeat. -/
theorem boundary_inclusive_witness :
    tick 2 ⟨1000, 2000⟩ 2000 ⟨0, 0⟩ = (⟨0, 0⟩, none) ∧
    ((tick 2 ⟨1000, 2000⟩ 2001 ⟨0, 0⟩ = (⟨0, 0 + 1⟩, some 1000) ∨
        tick 2 ⟨1000, 2000⟩ 2001 ⟨0, 0⟩ = (⟨0 + 1, 0⟩, none)) ∧
      (tick 2 ⟨1000, 2000⟩ 2001 ⟨0, 0⟩).1 ≠ ⟨0, 0⟩) :=
  ⟨(boundary_inclusive 2 ⟨1000, 2000⟩ 2000 ⟨0, 0⟩).1 (by decide),
    (boundary_inclusive 2 ⟨1000, 2000⟩ 2001 ⟨0, 0⟩).2 (by decide)⟩

/-- With repeat limit 0 no tick seeks. -/
theorem tick_zero_seek (seg : SubtitleItem) (t : Int) (st : LoopState) :
    (tick 0 seg t st).2 = none := by
  unfold tick
  split_ifs with h1 h2
  · exact absurd h2.1 (lt_irrefl 0)
  · rfl
  · rfl

/-- C4 (no-repeat mode): with repeat limit 0, a tick at a position past the end of the
current entry advances the index by 1, leaves the repeat counter 0 and does not seek; and
no run of the loop with repeat limit 0 contains a seek. -/
theorem no_repeat_mode :
    (∀ (subtitles : List SubtitleItem) (st : LoopState) (seg : SubtitleItem) (t : Int),
      subtitles[toSizeT st.currentSubtitleIndex]? = some seg → t > seg.endTimeMs →
      loopBody 0 subtitles t st = some (⟨st.currentSubtitleIndex + 1, 0⟩, none)) ∧
    (∀ (subtitles : List SubtitleItem) (obs : List PlayerObs) (st : LoopState),
      ∃ r, mainLoop 0 subtitles obs st = some r ∧ ∀ k ∈ r.ticks, k.seek = none) := by
  constructor
  · intro subtitles st seg t hseg ht
    have hno : ¬ ((0 : Int) > 0 ∧ st.currentRepeat < 0) := fun h => lt_irrefl 0 h.1
    simp [loopBody, hseg, tick_advance ht hno]
  · intro subtitles obs
    induction obs with
    | nil => intro st; exact ⟨_, rfl, by simp⟩
    | cons o os ih =>
      intro st
      by_cases hc : loopCond subtitles o.isPlaying st = true
      · obtain ⟨seg, _, hb⟩ := loopBody_of_loopCond (L := 0) o.currentTime hc
        obtain ⟨r, hr, hseek⟩ := ih (tick 0 seg o.currentTime st).1
        refine ⟨⟨⟨o.currentTime, (tick 0 seg o.currentTime st).1,
          (tick 0 seg o.currentTime st).2⟩ :: r.ticks, r.final, r.exited⟩, ?_, ?_⟩
        · simp [mainLoop, hc, hb, hr]
        · intro k hk
          rcases List.mem_cons.mp hk with rfl | hk
          · exact tick_zero_seek seg o.currentTime st
          · exact hseek k hk
      · refine ⟨⟨[], st, true⟩, ?_, ?_⟩
        · simp [mainLoop, hc]
        · simp

/-- Witness for C4: two entries, limit 0, positions past each end. -/
theorem no_repeat_mode_witness :
    loopBody 0 [⟨1000, 2000⟩, ⟨3000, 4000⟩] 2500 ⟨0, 0⟩ = some (⟨0 + 1, 0⟩, none) ∧
    ∃ r, mainLoop 0 [⟨1000, 2000⟩, ⟨3000, 4000⟩] (playingAt [2500, 4500, 5000]) ⟨0, 0⟩
        = some r ∧ ∀ k ∈ r.ticks, k.seek = none :=
  ⟨no_repeat_mode.1 [⟨1000, 2000⟩, ⟨3000, 4000⟩] ⟨0, 0⟩ ⟨1000, 2000⟩ 2500 (by decide)
      (by decide),
    no_repeat_mode.2 [⟨1000, 2000⟩, ⟨3000, 4000⟩] (playingAt [2500, 4500, 5000]) ⟨0, 0⟩⟩

/-- Running the loop over `obs ++ more`, when it is still running after `obs`, continues
from the state reached with `more`. -/
theorem mainLoop_append (L : Int) (subtitles : List SubtitleItem) (more : List PlayerObs) :
    ∀ (obs : List PlayerObs) (st : LoopState) (r : LoopResult),
      mainLoop L subtitles obs st = some r → r.exited = false →
      mainLoop L subtitles (obs ++ more) st =
        (mainLoop L subtitles more r.final).map
          (fun r' => ⟨r.ticks ++ r'.ticks, r'.final, r'.exited⟩) := by
  intro obs
  induction obs with
  | nil =>
    intro st r h _
    simp only [mainLoop, Option.some.injEq] at h
    subst h
    cases hm : mainLoop L subtitles more st <;> simp [hm]
  | cons o os ih =>
    intro st r h hrun
    by_cases hc : loopCond subtitles o.isPlaying st = true
    · obtain ⟨seg, _, hb⟩ := loopBody_of_loopCond (L := L) o.currentTime hc
      obtain ⟨r0, hr0⟩ := mainLoop_isSome L subtitles os (tick L seg o.currentTime st).1
      simp only [mainLoop, hc, if_true, hb, hr0, Option.some.injEq] at h
      subst h
      have := ih _ r0 hr0 hrun
      rw [List.cons_append]
      simp only [mainLoop, hc, if_true, hb]
      rw [this]
      cases hm : mainLoop L subtitles more r0.final <;> simp
    · simp only [mainLoop, hc, Bool.false_eq_true, if_false, Option.some.injEq] at h
      subst h
      cases hrun

/-- The index stays between 0 and the number of entries. -/
theorem mainLoop_index_bounds (L : Int) (subtitles : List SubtitleItem)
    (hsize : subtitles.length < 2 ^ 64) :
    ∀ (obs : List PlayerObs) (st : LoopState) (r : LoopResult),
      0 ≤ st.currentSubtitleIndex → st.currentSubtitleIndex ≤ subtitles.length →
      mainLoop L subtitles obs st = some r →
      0 ≤ r.final.currentSubtitleIndex ∧ r.final.currentSubtitleIndex ≤ subtitles.length := by
  intro obs
  induction obs with
  | nil =>
    intro st r h0 h1 h
    simp only [mainLoop, Option.some.injEq] at h
    subst h
    exact ⟨h0, h1⟩
  | cons o os ih =>
    intro st r h0 h1 h
    by_cases hc : loopCond subtitles o.isPlaying st = true
    · obtain ⟨seg, _, hb⟩ := loopBody_of_loopCond (L := L) o.currentTime hc
      obtain ⟨r0, hr0⟩ := mainLoop_isSome L subtitles os (tick L seg o.currentTime st).1
      simp only [mainLoop, hc, if_true, hb, hr0, Option.some.injEq] at h
      subst h
      have hlt : st.currentSubtitleIndex < subtitles.length := by
        simp only [loopCond, Bool.and_eq_true, decide_eq_true_eq] at hc
        have h64 : st.currentSubtitleIndex < 2 ^ 64 := by
          have : (subtitles.length : Int) < 2 ^ 64 := by exact_mod_cast hsize
          omega
        rw [toSizeT_of_nonneg h0 h64] at hc
        omega
      have hstep := tick_index_step L seg o.currentTime st
      refine ih _ r0 (le_trans h0 hstep.1) ?_ hr0
      by_cases hlt' : st.currentSubtitleIndex <
          (tick L seg o.currentTime st).1.currentSubtitleIndex
      · rw [(hstep.2 hlt').1]; omega
      · have := hstep.1; omega
    · simp only [mainLoop, hc, Bool.false_eq_true, if_false, Option.some.injEq] at h
      subst h
      exact ⟨h0, h1⟩

/-- C5 (termination condition): after any run from the initial state that is still in the
loop, the next evaluation of the loop condition lets a tick happen if and only if the
player reports playing and the index is a valid index of the timeline; it ends the loop
exactly when the index equals the number of entries or the player is not playing. In the
first case the tick reads the position; in the second the loop has ended with the ticks
and the state it had, whatever the player would report afterwards. -/
theorem termination_condition (L : Int) (subtitles : List SubtitleItem)
    (hsize : subtitles.length < 2 ^ 31) (obs : List PlayerObs) (r : LoopResult)
    (h : mainLoop L subtitles obs initState = some r) (hrun : r.exited = false)
    (o : PlayerObs) (rest : List PlayerObs) :
    (loopCond subtitles o.isPlaying r.final = true ↔
      (o.isPlaying = true ∧ 0 ≤ r.final.currentSubtitleIndex ∧
        r.final.currentSubtitleIndex < subtitles.length)) ∧
    (loopCond subtitles o.isPlaying r.final = false ↔
      (r.final.currentSubtitleIndex = subtitles.length ∨ o.isPlaying = false)) ∧
    (loopCond subtitles o.isPlaying r.final = true →
      ∃ r' k later, mainLoop L subtitles (obs ++ o :: rest) initState = some r' ∧
        r'.ticks = r.ticks ++ k :: later ∧ k.currentTime = o.currentTime) ∧
    (loopCond subtitles o.isPlaying r.final = false →
      mainLoop L subtitles (obs ++ o :: rest) initState = some ⟨r.ticks, r.final, true⟩) := by
  have hsize64 : subtitles.length < 2 ^ 64 := lt_trans hsize (by norm_num)
  obtain ⟨h0, h1⟩ := mainLoop_index_bounds L subtitles hsize64 obs initState r
    (le_refl _) (by simp [initState]) h
  have h64 : r.final.currentSubtitleIndex < 2 ^ 64 := by
    have : (subtitles.length : Int) < 2 ^ 64 := by exact_mod_cast hsize64
    omega
  have hcond : loopCond subtitles o.isPlaying r.final = true ↔
      (o.isPlaying = true ∧ 0 ≤ r.final.currentSubtitleIndex ∧
        r.final.currentSubtitleIndex < subtitles.length) := by
    simp only [loopCond, Bool.and_eq_true, decide_eq_true_eq, toSizeT_of_nonneg h0 h64]
    constructor
    · rintro ⟨hp, hi⟩; exact ⟨hp, h0, by omega⟩
    · rintro ⟨hp, _, hi⟩; exact ⟨hp, by omega⟩
  have happ := mainLoop_append L subtitles (o :: rest) obs initState r h hrun
  refine ⟨hcond, ?_, ?_, ?_⟩
  · rw [← Bool.not_eq_true, hcond]
    constructor
    · intro hn
      by_cases hp : o.isPlaying = true
      · left
        have : ¬ r.final.currentSubtitleIndex < subtitles.length := fun hi => hn ⟨hp, h0, hi⟩
        omega
      · right; simpa using hp
    · rintro (he | hp) ⟨hp', _, hi⟩
      · omega
      · rw [hp] at hp'; cases hp'
  · intro hc
    obtain ⟨seg, _, hb⟩ := loopBody_of_loopCond (L := L) o.currentTime hc
    obtain ⟨r0, hr0⟩ := mainLoop_isSome L subtitles rest (tick L seg o.currentTime r.final).1
    refine ⟨⟨r.ticks ++ ⟨o.currentTime, (tick L seg o.currentTime r.final).1,
      (tick L seg o.currentTime r.final).2⟩ :: r0.ticks, r0.final, r0.exited⟩,
      ⟨o.currentTime, (tick L seg o.currentTime r.final).1,
      (tick L seg o.currentTime r.final).2⟩, r0.ticks, ?_, rfl, rfl⟩
    rw [happ]
    simp [mainLoop, hc, hb, hr0]
  · intro hc
    rw [happ]
    simp [mainLoop, hc]

/-- Witness for C5: one entry, limit 1; after a repeat and the advance the index equals the
number of entries, and the loop ends although the player still plays. -/
theorem termination_condition_witness :
    (loopCond [⟨1000, 2000⟩] true (⟨1, 0⟩ : LoopState) = false ↔
      ((1 : Int) = ([⟨1000, 2000⟩] : List SubtitleItem).length ∨ true = false)) ∧
    mainLoop 1 [⟨1000, 2000⟩] (playingAt [2500, 2500] ++ ⟨true, 3000⟩ :: [⟨true, 3000⟩])
        initState
      = some ⟨[⟨2500, ⟨0, 1⟩, some 1000⟩, ⟨2500, ⟨1, 0⟩, none⟩], ⟨1, 0⟩, true⟩ :=
  have hw := termination_condition 1 [⟨1000, 2000⟩] (by decide) (playingAt [2500, 2500])
    ⟨[⟨2500, ⟨0, 1⟩, some 1000⟩, ⟨2500, ⟨1, 0⟩, none⟩], ⟨1, 0⟩, false⟩ (by decide) rfl
    ⟨true, 3000⟩ [⟨true, 3000⟩]
  ⟨hw.2.1, hw.2.2.2 (by decide)⟩

/-! ## Facts about the library functions -/

theorem digitVal_le_of_isDigit {c : Char} (h : c.isDigit = true) : digitVal c ≤ 9 := by
  simp only [Char.isDigit, Bool.and_eq_true, decide_eq_true_eq] at h
  have h2 : c.val.toNat ≤ 57 := h.2
  simp only [digitVal, Char.toNat]
  omega

theorem isspace_eq_false_of_isDigit {c : Char} (h : c.isDigit = true) : isspace c = false := by
  simp only [isspace, Bool.or_eq_false_iff, decide_eq_false_iff_not]
  refine ⟨⟨⟨⟨⟨?_, ?_⟩, ?_⟩, ?_⟩, ?_⟩, ?_⟩ <;> (rintro rfl; exact absurd h (by decide))

theorem takeSign_of_isDigit {c : Char} (cs : List Char) (h : c.isDigit = true) :
    takeSign (c :: cs) = (false, c :: cs) := by
  have h1 : c ≠ '-' := by rintro rfl; exact absurd h (by decide)
  have h2 : c ≠ '+' := by rintro rfl; exact absurd h (by decide)
  simp [takeSign, h1, h2]

/-- A run of `n` decimal digits has a value below `10 ^ n`. -/
theorem digitsVal_foldl_lt (ds : List Char) (hd : ∀ c ∈ ds, c.isDigit = true) :
    ∀ acc : Nat, ds.foldl (fun a c => 10 * a + digitVal c) acc < (acc + 1) * 10 ^ ds.length := by
  induction ds with
  | nil => intro acc; simp
  | cons c cs ih =>
    intro acc
    have hc := digitVal_le_of_isDigit (hd c (by simp))
    have := ih (fun x hx => hd x (List.mem_cons_of_mem _ hx)) (10 * acc + digitVal c)
    simp only [List.foldl_cons, List.length_cons]
    calc List.foldl (fun a c => 10 * a + digitVal c) (10 * acc + digitVal c) cs
        < (10 * acc + digitVal c + 1) * 10 ^ cs.length := this
      _ ≤ ((acc + 1) * 10) * 10 ^ cs.length := by
          apply Nat.mul_le_mul_right; omega
      _ = (acc + 1) * 10 ^ (cs.length + 1) := by ring

theorem digitsVal_lt (ds : List Char) (hd : ∀ c ∈ ds, c.isDigit = true) :
    digitsVal ds < 10 ^ ds.length := by
  simpa [digitsVal] using digitsVal_foldl_lt ds hd 0

/-- On a non-empty run of at most 18 decimal digits `stoll` gives the value of the run. -/
theorem stoll_digits (ds : List Char) (hne : ds ≠ []) (hd : ∀ c ∈ ds, c.isDigit = true)
    (hlen : ds.length ≤ 18) : stoll ds = .ok (digitsVal ds) := by
  obtain ⟨c, cs, rfl⟩ := List.exists_cons_of_ne_nil hne
  have hc : c.isDigit = true := hd c (by simp)
  have hdrop : (c :: cs).dropWhile isspace = c :: cs := by
    simp [List.dropWhile, isspace_eq_false_of_isDigit hc]
  have htake : (c :: cs).takeWhile Char.isDigit = c :: cs :=
    List.takeWhile_eq_self_iff.mpr hd
  have hlt := digitsVal_lt (c :: cs) hd
  have hpow : 10 ^ (c :: cs).length ≤ 10 ^ 18 := Nat.pow_le_pow_right (by norm_num) hlen
  have hv : (digitsVal (c :: cs) : Int) < 10 ^ 18 := by
    have : digitsVal (c :: cs) < 10 ^ 18 := lt_of_lt_of_le hlt hpow
    exact_mod_cast this
  have hv0 : (0 : Int) ≤ digitsVal (c :: cs) := Int.natCast_nonneg _
  have hnot : ¬ ((digitsVal (c :: cs) : Int) < -(2 : Int) ^ 63 ∨
      (digitsVal (c :: cs) : Int) > (2 : Int) ^ 63 - 1) := by
    norm_num at hv ⊢
    omega
  simp only [stoll, hdrop, takeSign_of_isDigit cs hc, htake]
  rw [if_neg (by simp), if_neg (by simpa using hnot)]
  simp

/-- What `stoll` returns is bounded by the length of its argument. -/
theorem stoll_abs_lt {s : List Char} {v : Int} (h : stoll s = .ok v) :
    |v| < 10 ^ s.length := by
  have hds : ∀ c ∈ (takeSign (s.dropWhile isspace)).2.takeWhile Char.isDigit,
      c.isDigit = true := fun c hc => List.mem_takeWhile_imp hc
  have hlen : ((takeSign (s.dropWhile isspace)).2.takeWhile Char.isDigit).length
      ≤ s.length := by
    refine le_trans (List.takeWhile_sublist _).length_le ?_
    refine le_trans ?_ (List.dropWhile_sublist isspace).length_le
    unfold takeSign
    split_ifs <;> simp
  have hlt := digitsVal_lt _ hds
  have hpow := Nat.pow_le_pow_right (n := 10) (by norm_num) hlen
  have hnat : digitsVal ((takeSign (s.dropWhile isspace)).2.takeWhile Char.isDigit)
      < 10 ^ s.length := lt_of_lt_of_le hlt hpow
  have hint : ((digitsVal ((takeSign (s.dropWhile isspace)).2.takeWhile Char.isDigit) : Nat)
      : Int) < 10 ^ s.length := by exact_mod_cast hnat
  unfold stoll at h
  simp only at h
  rw [abs_lt]
  split_ifs at h with h1 h2 h3 h4 <;> simp only [Except.ok.injEq] at h <;>
    constructor <;> omega

/-- The `try` block of `timeToMs` succeeds only when every `substr` and every `stoll`
in it does. -/
theorem timeToMsTry_ok {str : List Char} {v : Int} (hv : timeToMsTry str = .ok v) :
    ∃ g1 g2 g3 g4 h m s ms,
      substr str 0 2 = .ok g1 ∧ stoll g1 = .ok h ∧
      substr str 3 2 = .ok g2 ∧ stoll g2 = .ok m ∧
      substr str 6 2 = .ok g3 ∧ stoll g3 = .ok s ∧
      substr str 9 3 = .ok g4 ∧ stoll g4 = .ok ms ∧
      v = h * 3600000 + m * 60000 + s * 1000 + ms := by
  unfold timeToMsTry at hv
  cases b1 : substr str 0 2 with
  | error e => simp [b1, bind, Except.bind] at hv
  | ok g1 =>
  cases e1 : stoll g1 with
  | error e => simp [b1, e1, bind, Except.bind] at hv
  | ok h =>
  cases b2 : substr str 3 2 with
  | error e => simp [b1, e1, b2, bind, Except.bind] at hv
  | ok g2 =>
  cases e2 : stoll g2 with
  | error e => simp [b1, e1, b2, e2, bind, Except.bind] at hv
  | ok m =>
  cases b3 : substr str 6 2 with
  | error e => simp [b1, e1, b2, e2, b3, bind, Except.bind] at hv
  | ok g3 =>
  cases e3 : stoll g3 with
  | error e => simp [b1, e1, b2, e2, b3, e3, bind, Except.bind] at hv
  | ok s =>
  cases b4 : substr str 9 3 with
  | error e => simp [b1, e1, b2, e2, b3, e3, b4, bind, Except.bind] at hv
  | ok g4 =>
  cases e4 : stoll g4 with
  | error e => simp [b1, e1, b2, e2, b3, e3, b4, e4, bind, Except.bind] at hv
  | ok ms =>
  simp only [b1, e1, b2, e2, b3, e3, b4, e4, bind, Except.bind, pure, Except.pure,
    Except.ok.injEq] at hv
  exact ⟨g1, g2, g3, g4, h, m, s, ms, rfl, e1, rfl, e2, rfl, e3, rfl, e4, hv.symm⟩

theorem substr_length_le {s g : List Char} {pos len : Nat} (h : substr s pos len = .ok g) :
    g.length ≤ len := by
  unfold substr at h
  split_ifs at h
  simp only [Except.ok.injEq] at h
  rw [← h]
  exact List.length_take_le _ _

/-- The value computed by `timeToMs` is far inside the range of `long long`: the
arithmetic of line 24 cannot overflow. -/
theorem timeToMs_abs_lt (str : List Char) : |timeToMs str| < 400000000 := by
  unfold timeToMs
  cases hv : timeToMsTry str with
  | error e => simp
  | ok v =>
    obtain ⟨g1, g2, g3, g4, h, m, s, ms, b1, e1, b2, e2, b3, e3, b4, e4, rfl⟩ :=
      timeToMsTry_ok hv
    have bound : ∀ {g : List Char} {x : Int} {n : Nat}, g.length ≤ n → stoll g = .ok x →
        |x| < 10 ^ n := fun hl hx =>
      lt_of_lt_of_le (stoll_abs_lt hx) (pow_le_pow_right₀ (by norm_num) hl)
    have h1 := bound (substr_length_le b1) e1
    have h2 := bound (substr_length_le b2) e2
    have h3 := bound (substr_length_le b3) e3
    have h4 := bound (substr_length_le b4) e4
    simp only [abs_lt] at h1 h2 h3 h4 ⊢
    constructor <;> omega

/-- While the timeline has fewer than `2 ^ 31` entries and the repeat count is an `int`,
the loop variables stay in the range of `int`: the increments of lines 127 and 129
cannot overflow. -/
theorem loopBody_int_range (L : Int) (subtitles : List SubtitleItem) (t : Int)
    (st st' : LoopState) (seek : Option Int) (hL : L < 2 ^ 31)
    (hsize : subtitles.length < 2 ^ 31) (playing : Bool)
    (hc : loopCond subtitles playing st = true)
    (hi : 0 ≤ st.currentSubtitleIndex) (hi' : st.currentSubtitleIndex < 2 ^ 31)
    (hr : 0 ≤ st.currentRepeat) (hr' : st.currentRepeat < 2 ^ 31)
    (hb : loopBody L subtitles t st = some (st', seek)) :
    0 ≤ st'.currentSubtitleIndex ∧ st'.currentSubtitleIndex < 2 ^ 31 ∧
    0 ≤ st'.currentRepeat ∧ st'.currentRepeat < 2 ^ 31 := by
  obtain ⟨seg, _, hb'⟩ := loopBody_of_loopCond (L := L) t hc
  rw [hb'] at hb
  simp only [Option.some.injEq] at hb
  simp only [loopCond, Bool.and_eq_true, decide_eq_true_eq] at hc
  rw [toSizeT_of_nonneg hi (lt_trans hi' (by norm_num))] at hc
  have hlt : st.currentSubtitleIndex < subtitles.length := by omega
  have hsz : (subtitles.length : Int) < 2 ^ 31 := by exact_mod_cast hsize
  have hst' : st' = (tick L seg t st).1 := by rw [hb]
  subst hst'
  unfold tick
  split_ifs with h1 h2 <;> simp only <;> refine ⟨?_, ?_, ?_, ?_⟩ <;> omega

/-! ## Facts about the parser -/

/-- C6 (timestamp conversion): on a 12-character string with decimal digits at columns
0-1, 3-4, 6-7 and 9-11 (and any separator characters at columns 2, 5 and 8, so in
particular on every valid `HH:MM:SS,mmm`), `timeToMs` returns
`h * 3600000 + m * 60000 + s * 1000 + ms` for the values `h`, `m`, `s`, `ms` of the four
digit groups. -/
theorem timeToMs_valid (h1 h2 m1 m2 s1 s2 x1 x2 x3 sep1 sep2 sep3 : Char)
    (hd : ∀ c ∈ [h1, h2, m1, m2, s1, s2, x1, x2, x3], c.isDigit = true) :
    timeToMs [h1, h2, sep1, m1, m2, sep2, s1, s2, sep3, x1, x2, x3] =
      ((10 * digitVal h1 + digitVal h2 : Nat) : Int) * 3600000
        + ((10 * digitVal m1 + digitVal m2 : Nat) : Int) * 60000
        + ((10 * digitVal s1 + digitVal s2 : Nat) : Int) * 1000
        + ((100 * digitVal x1 + 10 * digitVal x2 + digitVal x3 : Nat) : Int) := by
  have e1 : stoll [h1, h2] = .ok (digitsVal [h1, h2]) :=
    stoll_digits _ (by simp) (fun c hc => hd c (by simp at hc ⊢; tauto)) (by simp)
  have e2 : stoll [m1, m2] = .ok (digitsVal [m1, m2]) :=
    stoll_digits _ (by simp) (fun c hc => hd c (by simp at hc ⊢; tauto)) (by simp)
  have e3 : stoll [s1, s2] = .ok (digitsVal [s1, s2]) :=
    stoll_digits _ (by simp) (fun c hc => hd c (by simp at hc ⊢; tauto)) (by simp)
  have e4 : stoll [x1, x2, x3] = .ok (digitsVal [x1, x2, x3]) :=
    stoll_digits _ (by simp) (fun c hc => hd c (by simp at hc ⊢; tauto)) (by simp)
  have b1 : substr [h1, h2, sep1, m1, m2, sep2, s1, s2, sep3, x1, x2, x3] 0 2
      = .ok [h1, h2] := rfl
  have b2 : substr [h1, h2, sep1, m1, m2, sep2, s1, s2, sep3, x1, x2, x3] 3 2
      = .ok [m1, m2] := rfl
  have b3 : substr [h1, h2, sep1, m1, m2, sep2, s1, s2, sep3, x1, x2, x3] 6 2
      = .ok [s1, s2] := rfl
  have b4 : substr [h1, h2, sep1, m1, m2, sep2, s1, s2, sep3, x1, x2, x3] 9 3
      = .ok [x1, x2, x3] := rfl
  simp only [timeToMs, timeToMsTry, bind, Except.bind, pure, Except.pure, b1, b2, b3, b4,
    e1, e2, e3, e4]
  simp only [digitsVal, List.foldl_cons, List.foldl_nil]
  norm_num
  ring

/-- Witness for C6: `00:01:02,500` gives 62500. -/
theorem timeToMs_valid_witness :
    timeToMs ['0', '0', ':', '0', '1', ':', '0', '2', ',', '5', '0', '0'] = 62500 :=
  (timeToMs_valid '0' '0' '0' '1' '0' '2' '5' '0' '0' ':' ':' ',' (by decide)).trans
    (by decide)

theorem substr_zero (line : List Char) (len : Nat) :
    substr line 0 len = .ok (line.take len) := by
  simp [substr]

theorem substr_of_le {line : List Char} {pos : Nat} (len : Nat) (h : pos ≤ line.length) :
    substr line pos len = .ok ((line.drop pos).take len) := by
  simp [substr, Nat.not_lt.mpr h]

theorem substr_of_lt {line : List Char} {pos : Nat} (len : Nat) (h : line.length < pos) :
    substr line pos len = .error .out_of_range := by
  simp [substr, h]

/-- When every line with the separator has at least 17 characters, the loop of `parseSrt`
appends one entry per such line, in order, and nothing for the other lines. -/
theorem parseLoop_ok :
    ∀ (lines : List (List Char)) (subtitles : List SubtitleItem),
      (∀ line ∈ lines, (find line arrow).isSome = true → 17 ≤ line.length) →
      parseLoop lines subtitles = .ok (subtitles ++
        (lines.filter (fun l => (find l arrow).isSome)).map
          (fun line => ⟨timeToMs (line.take 12), timeToMs ((line.drop 17).take 12)⟩)) := by
  intro lines
  induction lines with
  | nil => intro subtitles _; simp [parseLoop]
  | cons line rest ih =>
    intro subtitles hlen
    have hrest : ∀ l ∈ rest, (find l arrow).isSome = true → 17 ≤ l.length :=
      fun l hl => hlen l (List.mem_cons_of_mem _ hl)
    by_cases ha : (find line arrow).isSome = true
    · have h17 := hlen line (List.mem_cons_self _ _) ha
      simp only [parseLoop, ha, if_true, substr_zero, substr_of_le 12 h17, bind, Except.bind]
      rw [ih _ hrest]
      simp [List.filter_cons, ha]
    · simp only [parseLoop, ha, Bool.false_eq_true, if_false]
      rw [ih _ hrest]
      simp [List.filter_cons, ha]

/-- C7 (parser result on well-formed input): when every line with `-->` has the layout
start (12 characters), ` --> `, end (12 characters), possibly followed by more, `parseSrt`
returns a timeline that matches the lines with `-->` one to one and in order, the entry
of a line being `(timeToMs start, timeToMs end)`; the other lines contribute nothing. -/
theorem parseSrt_wellFormed (content : List Char)
    (hwf : ∀ line ∈ getlines content, (find line arrow).isSome = true →
      ∃ s e rest, s.length = 12 ∧ e.length = 12 ∧
        line = s ++ [' ', '-', '-', '>', ' '] ++ e ++ rest) :
    ∃ subtitles, parseSrt (some content) = .ok subtitles ∧
      List.Forall₂
        (fun line item => ∃ s e rest, s.length = 12 ∧ e.length = 12 ∧
          line = s ++ [' ', '-', '-', '>', ' '] ++ e ++ rest ∧
          item = (⟨timeToMs s, timeToMs e⟩ : SubtitleItem))
        ((getlines content).filter (fun l => (find l arrow).isSome)) subtitles := by
  have h17 : ∀ line ∈ getlines content, (find line arrow).isSome = true →
      17 ≤ line.length := by
    intro line hl ha
    obtain ⟨s, e, rest, hs, he, rfl⟩ := hwf line hl ha
    simp only [List.length_append, hs, he, List.length_cons, List.length_nil]
    omega
  refine ⟨_, parseLoop_ok _ [] h17, ?_⟩
  simp only [List.nil_append, List.forall₂_map_right_iff, List.forall₂_same]
  intro line hl
  obtain ⟨hmem, ha⟩ := List.mem_filter.mp hl
  obtain ⟨s, e, rest, hs, he, rfl⟩ := hwf line hmem ha
  refine ⟨s, e, rest, hs, he, rfl, ?_⟩
  have t1 : (s ++ [' ', '-', '-', '>', ' '] ++ e ++ rest).take 12 = s := by
    rw [List.append_assoc, List.append_assoc]
    exact List.take_left' hs
  have t2 : ((s ++ [' ', '-', '-', '>', ' '] ++ e ++ rest).drop 17).take 12 = e := by
    rw [List.append_assoc, List.drop_left' (by simp [hs])]
    exact List.take_left' he
  rw [t1, t2]

/-- Witness for C7: an index line, a timing line and a caption line give the one entry
`(1000, 2000)`. -/
theorem parseSrt_wellFormed_witness :
    (∃ subtitles,
      parseSrt (some "1\n00:00:01,000 --> 00:00:02,000\nHi\n".toList) = .ok subtitles ∧
      List.Forall₂
        (fun line item => ∃ s e rest, s.length = 12 ∧ e.length = 12 ∧
          line = s ++ [' ', '-', '-', '>', ' '] ++ e ++ rest ∧
          item = (⟨timeToMs s, timeToMs e⟩ : SubtitleItem))
        ((getlines "1\n00:00:01,000 --> 00:00:02,000\nHi\n".toList).filter
          (fun l => (find l arrow).isSome)) subtitles) ∧
    parseSrt (some "1\n00:00:01,000 --> 00:00:02,000\nHi\n".toList) = .ok [⟨1000, 2000⟩] :=
  ⟨parseSrt_wellFormed "1\n00:00:01,000 --> 00:00:02,000\nHi\n".toList (by
      have hg : getlines "1\n00:00:01,000 --> 00:00:02,000\nHi\n".toList
          = ["1".toList, "00:00:01,000 --> 00:00:02,000".toList, "Hi".toList] := by decide
      rw [hg]
      intro line hl ha
      simp only [List.mem_cons, List.mem_singleton, List.not_mem_nil, or_false] at hl
      rcases hl with rfl | rfl | rfl
      · exact absurd ha (by decide)
      · exact ⟨"00:00:01,000".toList, "00:00:02,000".toList, [], by decide, by decide,
          by decide⟩
      · exact absurd ha (by decide)),
    by decide⟩

/-- The handler of `timeToMs` turns every exception of the `try` block into 0. -/
theorem timeToMs_of_error {str : List Char} {e : StdException}
    (h : timeToMsTry str = .error e) : timeToMs str = 0 := by
  simp [timeToMs, h]

theorem timeToMs_of_ok {str : List Char} {v : Int}
    (h : timeToMsTry str = .ok v) : timeToMs str = v := by
  simp [timeToMs, h]

/-- When `stoll` throws on one of the four groups, `timeToMs` returns 0. -/
theorem timeToMs_of_group_error {str g : List Char} {pos len : Nat} {e : StdException}
    (hp : (pos, len) ∈ [(0, 2), (3, 2), (6, 2), (9, 3)])
    (hg : substr str pos len = .ok g) (he : stoll g = .error e) : timeToMs str = 0 := by
  cases hv : timeToMsTry str with
  | error e' => exact timeToMs_of_error hv
  | ok v =>
    exfalso
    obtain ⟨g1, g2, g3, g4, h, m, s, ms, b1, e1, b2, e2, b3, e3, b4, e4, _⟩ :=
      timeToMsTry_ok hv
    simp only [List.mem_cons, Prod.mk.injEq, List.mem_singleton, List.not_mem_nil,
      or_false] at hp
    rcases hp with ⟨rfl, rfl⟩ | ⟨rfl, rfl⟩ | ⟨rfl, rfl⟩ | ⟨rfl, rfl⟩
    · rw [b1] at hg; cases hg; rw [e1] at he; cases he
    · rw [b2] at hg; cases hg; rw [e2] at he; cases he
    · rw [b3] at hg; cases hg; rw [e3] at he; cases he
    · rw [b4] at hg; cases hg; rw [e4] at he; cases he

/-- When `stoll` meets first a character that is no white space, sign or digit, it throws. -/
theorem stoll_error_of_head {c : Char} (cs : List Char) (hd : c.isDigit = false)
    (hs : isspace c = false) (hm : c ≠ '-') (hp : c ≠ '+') :
    stoll (c :: cs) = .error .invalid_argument := by
  have hdrop : (c :: cs).dropWhile isspace = c :: cs := by simp [List.dropWhile, hs]
  have hsign : takeSign (c :: cs) = (false, c :: cs) := by simp [takeSign, hm, hp]
  have htake : (c :: cs).takeWhile Char.isDigit = [] := by simp [List.takeWhile, hd]
  simp [stoll, hdrop, hsign, htake]

/-- A string of at most 9 characters has no milliseconds group: `timeToMs` returns 0. -/
theorem timeToMs_of_length_le {str : List Char} (h : str.length ≤ 9) : timeToMs str = 0 := by
  rcases Nat.lt_or_ge str.length 9 with hlt | hge
  · cases hv : timeToMsTry str with
    | error e' => exact timeToMs_of_error hv
    | ok v =>
      exfalso
      obtain ⟨g1, g2, g3, g4, h, m, s, ms, b1, e1, b2, e2, b3, e3, b4, e4, _⟩ :=
        timeToMsTry_ok hv
      rw [substr_of_lt 3 hlt] at b4
      cases b4
  · have h9 : str.length = 9 := le_antisymm h hge
    have hdrop : str.drop 9 = [] := List.drop_eq_nil_of_le (by omega)
    have hg : substr str 9 3 = .ok [] := by
      rw [substr_of_le 3 (by omega), hdrop]; rfl
    exact timeToMs_of_group_error (by simp) hg (by decide : stoll [] = .error .invalid_argument)

/-- When every line with the separator has at least 17 characters, `parseSrt` returns as
many entries as there are lines with the separator. -/
theorem parseSrt_length (content : List Char)
    (h17 : ∀ line ∈ getlines content, (find line arrow).isSome = true → 17 ≤ line.length) :
    ∃ subtitles, parseSrt (some content) = .ok subtitles ∧
      subtitles.length = ((getlines content).filter (fun l => (find l arrow).isSome)).length :=
  ⟨_, parseLoop_ok _ [] h17, by simp⟩

/-- C8 (parser line filtering), the code at the failing input: a file with two lines that
contain `-->`, the second one shorter than 17 characters. `parseSrt` does not return a
timeline of two entries: `line.substr(17, 12)` throws `std::out_of_range`, which is not
caught. -/
theorem parseSrt_short_line_throws :
    ((getlines "1\n00:00:01,000 --> 00:00:02,000\nGo -->\n".toList).filter
        (fun l => (find l arrow).isSome)).length = 2 ∧
    parseSrt (some "1\n00:00:01,000 --> 00:00:02,000\nGo -->\n".toList)
      = .error .out_of_range := by
  decide

/-- On a group of at most 18 characters that begins with a decimal digit `stoll` returns
the value of the leading run of digits, whatever follows the run. -/
theorem stoll_leading {g : List Char} {c : Char} (hh : g.head? = some c)
    (hc : c.isDigit = true) (hlen : g.length ≤ 18) :
    stoll g = .ok (digitsVal (g.takeWhile Char.isDigit)) := by
  obtain ⟨cs, rfl⟩ : ∃ cs, g = c :: cs := by
    cases g with
    | nil => cases hh
    | cons a cs => simp only [List.head?_cons, Option.some.injEq] at hh; exact ⟨cs, by rw [hh]⟩
  have hdrop : (c :: cs).dropWhile isspace = c :: cs := by
    simp [List.dropWhile, isspace_eq_false_of_isDigit hc]
  have hne : (c :: cs).takeWhile Char.isDigit ≠ [] := by
    simp [List.takeWhile, hc]
  have hds : ∀ x ∈ (c :: cs).takeWhile Char.isDigit, x.isDigit = true :=
    fun x hx => List.mem_takeWhile_imp hx
  have hlt := digitsVal_lt _ hds
  have hle : ((c :: cs).takeWhile Char.isDigit).length ≤ 18 :=
    le_trans (List.takeWhile_sublist _).length_le hlen
  have hpow := Nat.pow_le_pow_right (n := 10) (by norm_num) hle
  have hv : (digitsVal ((c :: cs).takeWhile Char.isDigit) : Int) < 10 ^ 18 := by
    have : digitsVal ((c :: cs).takeWhile Char.isDigit) < 10 ^ 18 := lt_of_lt_of_le hlt hpow
    exact_mod_cast this
  have hv0 : (0 : Int) ≤ digitsVal ((c :: cs).takeWhile Char.isDigit) := Int.natCast_nonneg _
  have hnot : ¬ ((digitsVal ((c :: cs).takeWhile Char.isDigit) : Int) < -(2 : Int) ^ 63 ∨
      (digitsVal ((c :: cs).takeWhile Char.isDigit) : Int) > (2 : Int) ^ 63 - 1) := by
    norm_num at hv ⊢
    omega
  simp only [stoll, hdrop, takeSign_of_isDigit cs hc]
  rw [if_neg hne, if_neg (by simpa using hnot)]
  simp

/-- A group that has a first character lies inside the string, so `substr` delivers it. -/
theorem substr_of_head {ts : List Char} {pos len : Nat} {c : Char}
    (hh : ((ts.drop pos).take len).head? = some c) :
    substr ts pos len = .ok ((ts.drop pos).take len) := by
  apply substr_of_le
  by_contra hlt
  rw [List.drop_eq_nil_of_le (by omega)] at hh
  simp at hh

/-- When each of the four groups of a string begins with a decimal digit, `timeToMs`
returns the value built from the leading runs of digits of the groups, whatever follows
the runs inside the groups. -/
theorem timeToMs_leading (ts : List Char)
    (hg : ∀ p ∈ [(0, 2), (3, 2), (6, 2), (9, 3)],
      ∃ c, ((ts.drop p.1).take p.2).head? = some c ∧ c.isDigit = true) :
    timeToMs ts =
      (digitsVal (((ts.drop 0).take 2).takeWhile Char.isDigit) : Int) * 3600000
        + (digitsVal (((ts.drop 3).take 2).takeWhile Char.isDigit) : Int) * 60000
        + (digitsVal (((ts.drop 6).take 2).takeWhile Char.isDigit) : Int) * 1000
        + (digitsVal (((ts.drop 9).take 3).takeWhile Char.isDigit) : Int) := by
  obtain ⟨c1, hh1, hc1⟩ := hg (0, 2) (by simp)
  obtain ⟨c2, hh2, hc2⟩ := hg (3, 2) (by simp)
  obtain ⟨c3, hh3, hc3⟩ := hg (6, 2) (by simp)
  obtain ⟨c4, hh4, hc4⟩ := hg (9, 3) (by simp)
  have l2 : ∀ pos, ((ts.drop pos).take 2).length ≤ 18 := fun pos =>
    le_trans (List.length_take_le _ _) (by norm_num)
  have l3 : ((ts.drop 9).take 3).length ≤ 18 :=
    le_trans (List.length_take_le _ _) (by norm_num)
  have b1 := substr_of_head hh1
  have b2 := substr_of_head hh2
  have b3 := substr_of_head hh3
  have b4 := substr_of_head hh4
  have e1 := stoll_leading hh1 hc1 (l2 0)
  have e2 := stoll_leading hh2 hc2 (l2 3)
  have e3 := stoll_leading hh3 hc3 (l2 6)
  have e4 := stoll_leading hh4 hc4 l3
  simp only at b1 b2 b3 b4 e1 e2 e3 e4
  simp only [timeToMs, timeToMsTry, bind, Except.bind, pure, Except.pure, b1, b2, b3, b4,
    e1, e2, e3, e4]

/-- C9, the claim fails as stated: the start of the first line has a non-digit in a digit
column and the end of the second line is cut after 10 characters, yet neither side of the
entries is 0. -/
theorem parseSrt_degradation_counterexample :
    ('x'.isDigit = false ∧ "0x:00:01,000 --> 00:00:02,000".toList[1]? = some 'x') ∧
    ("00:00:03,000 --> 00:00:04,5".toList.drop 17).length = 10 ∧
    parseSrt (some "0x:00:01,000 --> 00:00:02,000\n00:00:03,000 --> 00:00:04,5\n".toList)
      = .ok [⟨1000, 2000⟩, ⟨3000, 4005⟩] := by
  decide

/-- C9 as amended (malformed input degradation): when every line with `-->` has at least
17 characters, `parseSrt` does not throw and drops no such line: each one gives, in order,
one entry `(timeToMs (columns 0-11), timeToMs (columns 17-28))`. A side whose conversion
throws inside `timeToMs` is 0 (the end side whenever the line has at most 26 characters),
a side whose conversion succeeds has the converted value, each side independently of the
other, and the lines that follow are parsed as well. A side (start or end substring) whose
four groups at its columns 0-1, 3-4, 6-7, 9-11 each begin with a decimal digit is converted
from the leading runs of digits of its groups, `h * 3600000 + m * 60000 + s * 1000 + ms`,
whatever follows the digits inside a group: it is not replaced by 0. -/
theorem parseSrt_degradation (content : List Char)
    (h17 : ∀ line ∈ getlines content, (find line arrow).isSome = true → 17 ≤ line.length) :
    ∃ subtitles, parseSrt (some content) = .ok subtitles ∧
      List.Forall₂
        (fun line item =>
          item = (⟨timeToMs (line.take 12), timeToMs ((line.drop 17).take 12)⟩
            : SubtitleItem) ∧
          (∀ e, timeToMsTry (line.take 12) = .error e → item.startTimeMs = 0) ∧
          (∀ v, timeToMsTry (line.take 12) = .ok v → item.startTimeMs = v) ∧
          (∀ e, timeToMsTry ((line.drop 17).take 12) = .error e → item.endTimeMs = 0) ∧
          (∀ v, timeToMsTry ((line.drop 17).take 12) = .ok v → item.endTimeMs = v) ∧
          (line.length ≤ 26 → item.endTimeMs = 0) ∧
          (∀ side ∈ [(line.take 12, item.startTimeMs),
              ((line.drop 17).take 12, item.endTimeMs)],
            (∀ p ∈ [(0, 2), (3, 2), (6, 2), (9, 3)],
              ∃ c, ((side.1.drop p.1).take p.2).head? = some c ∧ c.isDigit = true) →
            side.2 =
              (digitsVal (((side.1.drop 0).take 2).takeWhile Char.isDigit) : Int) * 3600000
                + (digitsVal (((side.1.drop 3).take 2).takeWhile Char.isDigit) : Int) * 60000
                + (digitsVal (((side.1.drop 6).take 2).takeWhile Char.isDigit) : Int) * 1000
                + (digitsVal (((side.1.drop 9).take 3).takeWhile Char.isDigit) : Int)))
        ((getlines content).filter (fun l => (find l arrow).isSome)) subtitles := by
  refine ⟨_, parseLoop_ok _ [] h17, ?_⟩
  simp only [List.nil_append, List.forall₂_map_right_iff, List.forall₂_same]
  intro line _
  refine ⟨trivial, fun e he => timeToMs_of_error he, fun v hv => timeToMs_of_ok hv,
    fun e he => timeToMs_of_error he, fun v hv => timeToMs_of_ok hv, fun hlen => ?_, ?_⟩
  · apply timeToMs_of_length_le
    rw [List.length_take, List.length_drop]
    omega
  · intro side hside hg
    simp only [List.mem_cons, List.mem_singleton, List.not_mem_nil, or_false] at hside
    rcases hside with rfl | rfl
    · exact timeToMs_leading _ hg
    · exact timeToMs_leading _ hg

/-- Witness for C9 as amended: the end of the first line is cut after 5 characters, its
entry keeps the start 1000 and has the end 0; the second line has a letter in a digit
column of its start and an end cut after 10 characters, its entry is built from the
leading digits of the groups, 3000 and 4005. -/
theorem parseSrt_degradation_witness :
    (∃ subtitles,
      parseSrt (some "00:00:01,000 --> 00:00\n0x:00:03,000 --> 00:00:04,5\n".toList)
        = .ok subtitles ∧
      List.Forall₂
        (fun line item =>
          item = (⟨timeToMs (line.take 12), timeToMs ((line.drop 17).take 12)⟩
            : SubtitleItem) ∧
          (∀ e, timeToMsTry (line.take 12) = .error e → item.startTimeMs = 0) ∧
          (∀ v, timeToMsTry (line.take 12) = .ok v → item.startTimeMs = v) ∧
          (∀ e, timeToMsTry ((line.drop 17).take 12) = .error e → item.endTimeMs = 0) ∧
          (∀ v, timeToMsTry ((line.drop 17).take 12) = .ok v → item.endTimeMs = v) ∧
          (line.length ≤ 26 → item.endTimeMs = 0) ∧
          (∀ side ∈ [(line.take 12, item.startTimeMs),
              ((line.drop 17).take 12, item.endTimeMs)],
            (∀ p ∈ [(0, 2), (3, 2), (6, 2), (9, 3)],
              ∃ c, ((side.1.drop p.1).take p.2).head? = some c ∧ c.isDigit = true) →
            side.2 =
              (digitsVal (((side.1.drop 0).take 2).takeWhile Char.isDigit) : Int) * 3600000
                + (digitsVal (((side.1.drop 3).take 2).takeWhile Char.isDigit) : Int) * 60000
                + (digitsVal (((side.1.drop 6).take 2).takeWhile Char.isDigit) : Int) * 1000
                + (digitsVal (((side.1.drop 9).take 3).takeWhile Char.isDigit) : Int)))
        ((getlines "00:00:01,000 --> 00:00\n0x:00:03,000 --> 00:00:04,5\n".toList).filter
          (fun l => (find l arrow).isSome)) subtitles) ∧
    parseSrt (some "00:00:01,000 --> 00:00\n0x:00:03,000 --> 00:00:04,5\n".toList)
      = .ok [⟨1000, 0⟩, ⟨3000, 4005⟩] :=
  ⟨parseSrt_degradation "00:00:01,000 --> 00:00\n0x:00:03,000 --> 00:00:04,5\n".toList (by
      have hg : getlines "00:00:01,000 --> 00:00\n0x:00:03,000 --> 00:00:04,5\n".toList
          = ["00:00:01,000 --> 00:00".toList, "0x:00:03,000 --> 00:00:04,5".toList] := by
        decide
      rw [hg]
      intro line hl _
      simp only [List.mem_cons, List.mem_singleton, List.not_mem_nil, or_false] at hl
      rcases hl with rfl | rfl <;> decide),
    by decide⟩

/-- C10, the claim fails as stated: `1x:00:00,000` has a non-digit at column 1 and
`00:00:01,5` has only 10 characters, yet `timeToMs` returns 3600000 and 1005. -/
theorem timeToMs_failsoft_counterexample :
    ¬ (∀ str : List Char,
        (str.length < 12 ∨
          ∃ i ∈ [0, 1, 3, 4, 6, 7, 9, 10, 11], ∃ c, str[i]? = some c ∧ c.isDigit = false) →
        timeToMs str = 0) ∧
    timeToMs "1x:00:00,000".toList = 3600000 ∧
    timeToMs "00:00:01,5".toList = 1005 := by
  refine ⟨fun h => ?_, by decide, by decide⟩
  have h0 := h "1x:00:00,000".toList (Or.inr ⟨1, by decide, 'x', by decide, by decide⟩)
  exact absurd h0 (by decide)

/-- C10 as amended (fail-soft conversion): `timeToMs` always returns a value: the value of
the `try` block when it succeeds, and 0 for whatever exception it throws. It returns 0
whenever the string has at most 9 characters, whenever `stoll` throws on one of the groups
at columns 0-1, 3-4, 6-7, 9-11, and so whenever the first character of a group is not a
decimal digit, white space or a sign. -/
theorem timeToMs_failsoft (str : List Char) :
    (∀ e, timeToMsTry str = .error e → timeToMs str = 0) ∧
    (∀ v, timeToMsTry str = .ok v → timeToMs str = v) ∧
    (str.length ≤ 9 → timeToMs str = 0) ∧
    (∀ p ∈ [(0, 2), (3, 2), (6, 2), (9, 3)], ∀ g e,
      substr str p.1 p.2 = .ok g → stoll g = .error e → timeToMs str = 0) ∧
    (∀ i ∈ [0, 3, 6, 9], ∀ c, str[i]? = some c → c.isDigit = false → isspace c = false →
      c ≠ '-' → c ≠ '+' → timeToMs str = 0) := by
  refine ⟨fun e he => timeToMs_of_error he, fun v hv => timeToMs_of_ok hv,
    fun h => timeToMs_of_length_le h,
    fun p hp g e hg he => timeToMs_of_group_error hp hg he, ?_⟩
  intro i hi c hc hd hs hm hp
  obtain ⟨hlt, hget⟩ := List.getElem?_eq_some.mp hc
  have hdrop : str.drop i = c :: str.drop (i + 1) := by
    rw [← hget]; exact List.drop_eq_getElem_cons hlt
  have key : ∀ len : Nat, (i, len + 1) ∈ [(0, 2), (3, 2), (6, 2), (9, 3)] →
      timeToMs str = 0 := by
    intro len hmem
    have hg : substr str i (len + 1) = .ok (c :: (str.drop (i + 1)).take len) := by
      rw [substr_of_le (len + 1) (le_of_lt hlt), hdrop]; rfl
    exact timeToMs_of_group_error hmem hg (stoll_error_of_head _ hd hs hm hp)
  simp only [List.mem_cons, List.mem_singleton, List.not_mem_nil, or_false] at hi
  rcases hi with rfl | rfl | rfl | rfl
  · exact key 1 (by simp)
  · exact key 1 (by simp)
  · exact key 1 (by simp)
  · exact key 2 (by simp)

/-- Witness for C10 as amended: a string of 9 characters and a string whose first group
starts with a letter both give 0. -/
theorem timeToMs_failsoft_witness :
    timeToMs "00:00:01,".toList = 0 ∧ timeToMs "x0:00:00,000".toList = 0 :=
  ⟨(timeToMs_failsoft "00:00:01,".toList).2.2.1 (by decide),
    (timeToMs_failsoft "x0:00:00,000".toList).2.2.2.2 0 (by decide) 'x' (by decide)
      (by decide) (by decide) (by decide) (by decide)⟩

/-! ## Sign of the parsed times -/

theorem takeSign_fst_of_no_minus {s : List Char} (h : '-' ∉ s) : (takeSign s).1 = false := by
  unfold takeSign
  split_ifs with h1 h2
  · exact absurd (List.mem_of_mem_head? h1) h
  · rfl
  · rfl

/-- Without a minus sign in its argument `stoll` returns no negative value. -/
theorem stoll_nonneg_of_no_minus {s : List Char} {v : Int} (h : '-' ∉ s)
    (hv : stoll s = .ok v) : 0 ≤ v := by
  have hdrop : '-' ∉ s.dropWhile isspace :=
    fun hm => h ((List.dropWhile_sublist isspace).subset hm)
  have hsign := takeSign_fst_of_no_minus hdrop
  unfold stoll at hv
  simp only [hsign, Bool.false_eq_true, if_false] at hv
  split_ifs at hv
  simp only [Except.ok.injEq] at hv
  rw [← hv]
  exact Int.natCast_nonneg _

theorem substr_subset {s g : List Char} {pos len : Nat} (h : substr s pos len = .ok g) :
    ∀ c ∈ g, c ∈ s := by
  unfold substr at h
  split_ifs at h
  simp only [Except.ok.injEq] at h
  subst h
  intro c hc
  exact List.mem_of_mem_drop (List.mem_of_mem_take hc)

/-- Without a minus sign in its argument `timeToMs` returns no negative value. -/
theorem timeToMs_nonneg_of_no_minus {str : List Char} (h : '-' ∉ str) :
    0 ≤ timeToMs str := by
  cases hv : timeToMsTry str with
  | error e => rw [timeToMs_of_error hv]
  | ok v =>
    rw [timeToMs_of_ok hv]
    obtain ⟨g1, g2, g3, g4, a, b, c, d, b1, e1, b2, e2, b3, e3, b4, e4, rfl⟩ :=
      timeToMsTry_ok hv
    have n1 := stoll_nonneg_of_no_minus (fun hm => h (substr_subset b1 _ hm)) e1
    have n2 := stoll_nonneg_of_no_minus (fun hm => h (substr_subset b2 _ hm)) e2
    have n3 := stoll_nonneg_of_no_minus (fun hm => h (substr_subset b3 _ hm)) e3
    have n4 := stoll_nonneg_of_no_minus (fun hm => h (substr_subset b4 _ hm)) e4
    omega

/-- When the loop of `parseSrt` does not throw, every line with the separator has at
least 17 characters. -/
theorem parseLoop_ok_length :
    ∀ (lines : List (List Char)) (acc subtitles : List SubtitleItem),
      parseLoop lines acc = .ok subtitles →
      ∀ line ∈ lines, (find line arrow).isSome = true → 17 ≤ line.length := by
  intro lines
  induction lines with
  | nil => intro _ _ _ line hl; cases hl
  | cons l rest ih =>
    intro acc subtitles h line hl ha
    by_cases hla : (find l arrow).isSome = true
    · rcases Nat.lt_or_ge l.length 17 with hlt | hge
      · simp [parseLoop, hla, substr_zero, substr_of_lt 12 hlt, bind, Except.bind] at h
      · simp only [parseLoop, hla, if_true, substr_zero, substr_of_le 12 hge, bind,
          Except.bind] at h
        rcases List.mem_cons.mp hl with rfl | hl
        · exact hge
        · exact ih _ _ h line hl ha
    · simp only [parseLoop, hla, Bool.false_eq_true, if_false] at h
      rcases List.mem_cons.mp hl with rfl | hl
      · exact absurd ha hla
      · exact ih _ _ h line hl ha

/-- C11, the claim fails as stated: a start substring whose hours group is `-1` gives the
start time -3600000. -/
theorem parseSrt_start_nonneg_counterexample :
    ¬ (∀ (content : List Char) (subtitles : List SubtitleItem),
        parseSrt (some content) = .ok subtitles →
        ∀ item ∈ subtitles, 0 ≤ item.startTimeMs) := by
  intro h
  have h0 := h "-1:00:00,000 --> 00:00:02,000\n".toList [⟨-3600000, 2000⟩] (by decide)
    ⟨-3600000, 2000⟩ (by simp)
  exact absurd h0 (by decide)

theorem takeSign_fst_of_head {s : List Char} (h : s.head? ≠ some '-') :
    (takeSign s).1 = false := by
  unfold takeSign
  split_ifs with h1 h2
  · exact absurd h1 h
  · rfl
  · rfl

/-- When the first character after the leading white space is not a minus sign, `stoll`
returns no negative value. -/
theorem stoll_nonneg_of_head {s : List Char} {v : Int}
    (h : (s.dropWhile isspace).head? ≠ some '-') (hv : stoll s = .ok v) : 0 ≤ v := by
  have hsign := takeSign_fst_of_head h
  unfold stoll at hv
  simp only [hsign, Bool.false_eq_true, if_false] at hv
  split_ifs at hv
  simp only [Except.ok.injEq] at hv
  rw [← hv]
  exact Int.natCast_nonneg _

theorem substr_eq_of_ok {s g : List Char} {pos len : Nat} (h : substr s pos len = .ok g) :
    g = (s.drop pos).take len := by
  unfold substr at h
  split_ifs at h
  simp only [Except.ok.injEq] at h
  exact h.symm

/-- When none of the four groups of a string opens with a minus sign (as its first
character after leading white space), `timeToMs` returns no negative value. -/
theorem timeToMs_nonneg_of_groups {ts : List Char}
    (h : ∀ p ∈ [(0, 2), (3, 2), (6, 2), (9, 3)],
      (((ts.drop p.1).take p.2).dropWhile isspace).head? ≠ some '-') :
    0 ≤ timeToMs ts := by
  cases hv : timeToMsTry ts with
  | error e => rw [timeToMs_of_error hv]
  | ok v =>
    rw [timeToMs_of_ok hv]
    obtain ⟨g1, g2, g3, g4, a, b, c, d, b1, e1, b2, e2, b3, e3, b4, e4, rfl⟩ :=
      timeToMsTry_ok hv
    have q1 := h (0, 2) (by simp)
    have q2 := h (3, 2) (by simp)
    have q3 := h (6, 2) (by simp)
    have q4 := h (9, 3) (by simp)
    simp only at q1 q2 q3 q4
    rw [← substr_eq_of_ok b1] at q1
    rw [← substr_eq_of_ok b2] at q2
    rw [← substr_eq_of_ok b3] at q3
    rw [← substr_eq_of_ok b4] at q4
    have n1 := stoll_nonneg_of_head q1 e1
    have n2 := stoll_nonneg_of_head q2 e2
    have n3 := stoll_nonneg_of_head q3 e3
    have n4 := stoll_nonneg_of_head q4 e4
    omega

/-- A negative result of `timeToMs` comes from a group that opens with a minus sign and
on which `stoll` returns a negative number. -/
theorem timeToMs_neg_group {ts : List Char} (hneg : timeToMs ts < 0) :
    ∃ p ∈ [(0, 2), (3, 2), (6, 2), (9, 3)], ∃ v : Int,
      stoll ((ts.drop p.1).take p.2) = .ok v ∧ v < 0 ∧
      (((ts.drop p.1).take p.2).dropWhile isspace).head? = some '-' := by
  cases hv : timeToMsTry ts with
  | error e => rw [timeToMs_of_error hv] at hneg; exact absurd hneg (lt_irrefl 0)
  | ok v =>
    rw [timeToMs_of_ok hv] at hneg
    obtain ⟨g1, g2, g3, g4, a, b, c, d, b1, e1, b2, e2, b3, e3, b4, e4, rfl⟩ :=
      timeToMsTry_ok hv
    have key : ∀ {g : List Char} {x : Int}, stoll g = .ok x → x < 0 →
        (g.dropWhile isspace).head? = some '-' := by
      intro g x hx hlt
      by_contra hh
      have := stoll_nonneg_of_head hh hx
      omega
    rw [substr_eq_of_ok b1] at e1
    rw [substr_eq_of_ok b2] at e2
    rw [substr_eq_of_ok b3] at e3
    rw [substr_eq_of_ok b4] at e4
    have hcases : a < 0 ∨ b < 0 ∨ c < 0 ∨ d < 0 := by omega
    rcases hcases with ha | hb | hc | hd
    · exact ⟨(0, 2), by simp, a, e1, ha, key e1 ha⟩
    · exact ⟨(3, 2), by simp, b, e2, hb, key e2 hb⟩
    · exact ⟨(6, 2), by simp, c, e3, hc, key e3 hc⟩
    · exact ⟨(9, 3), by simp, d, e4, hd, key e4 hd⟩

/-- C11 as amended (segment non-negativity): when `parseSrt` returns, the entries of the
timeline match the lines with `-->` one to one and in order, and for each entry, with the
start substring (columns 0-11) of its own line: `|startTimeMs| < 400000000`;
`startTimeMs ≥ 0` provided none of the four groups at columns 0-1, 3-4, 6-7, 9-11 of that
substring opens with a minus sign, that is has `-` as its first character after leading
white space (minus signs elsewhere, plus signs, spaces and letters do no harm);
`startTimeMs = 0` whenever the conversion of that substring throws; and `startTimeMs < 0`
only when `stoll` returns a negative number on a group that opens with a minus sign. -/
theorem parseSrt_start_nonneg (content : List Char) (subtitles : List SubtitleItem)
    (h : parseSrt (some content) = .ok subtitles) :
    List.Forall₂
        (fun (line : List Char) (item : SubtitleItem) =>
          item.startTimeMs = timeToMs (line.take 12) ∧
          |item.startTimeMs| < 400000000 ∧
          ((∀ p ∈ [(0, 2), (3, 2), (6, 2), (9, 3)],
              ((((line.take 12).drop p.1).take p.2).dropWhile isspace).head? ≠ some '-') →
            0 ≤ item.startTimeMs) ∧
          (∀ e, timeToMsTry (line.take 12) = .error e → item.startTimeMs = 0) ∧
          (item.startTimeMs < 0 →
            ∃ p ∈ [(0, 2), (3, 2), (6, 2), (9, 3)], ∃ v : Int,
              stoll (((line.take 12).drop p.1).take p.2) = .ok v ∧ v < 0 ∧
              ((((line.take 12).drop p.1).take p.2).dropWhile isspace).head? = some '-'))
        ((getlines content).filter (fun l => (find l arrow).isSome)) subtitles := by
  have h17 := parseLoop_ok_length (getlines content) [] subtitles h
  have hok := parseLoop_ok (getlines content) [] h17
  have heq : subtitles = [] ++
      ((getlines content).filter (fun l => (find l arrow).isSome)).map
        (fun line => (⟨timeToMs (line.take 12), timeToMs ((line.drop 17).take 12)⟩
          : SubtitleItem)) := by
    have : parseLoop (getlines content) [] = .ok subtitles := h
    rw [hok] at this
    exact (Except.ok.inj this).symm
  rw [heq]
  simp only [List.nil_append, List.forall₂_map_right_iff, List.forall₂_same]
  intro line _
  exact ⟨trivial, timeToMs_abs_lt _, fun hg => timeToMs_nonneg_of_groups hg,
    fun e he => timeToMs_of_error he, fun hneg => timeToMs_neg_group hneg⟩

/-- Witness for C11 as amended: the start `1-:2-:3-,4-5` has minus signs, none of which
opens a group, and gives 3723004; the start of the second line is shifted, its substring
`00:00:01,5 -` ends with the first character of the separator and gives 1005. -/
theorem parseSrt_start_nonneg_witness :
    parseSrt (some "1-:2-:3-,4-5 --> 00:00:02,000\n00:00:01,5 --> 00:00:02,000\n".toList)
      = .ok [⟨3723004, 2000⟩, ⟨1005, 0⟩] ∧
    List.Forall₂
        (fun (line : List Char) (item : SubtitleItem) =>
          item.startTimeMs = timeToMs (line.take 12) ∧
          |item.startTimeMs| < 400000000 ∧
          ((∀ p ∈ [(0, 2), (3, 2), (6, 2), (9, 3)],
              ((((line.take 12).drop p.1).take p.2).dropWhile isspace).head? ≠ some '-') →
            0 ≤ item.startTimeMs) ∧
          (∀ e, timeToMsTry (line.take 12) = .error e → item.startTimeMs = 0) ∧
          (item.startTimeMs < 0 →
            ∃ p ∈ [(0, 2), (3, 2), (6, 2), (9, 3)], ∃ v : Int,
              stoll (((line.take 12).drop p.1).take p.2) = .ok v ∧ v < 0 ∧
              ((((line.take 12).drop p.1).take p.2).dropWhile isspace).head? = some '-'))
        ((getlines "1-:2-:3-,4-5 --> 00:00:02,000\n00:00:01,5 --> 00:00:02,000\n".toList).filter
          (fun l => (find l arrow).isSome))
        [⟨3723004, 2000⟩, ⟨1005, 0⟩] :=
  ⟨by decide,
    parseSrt_start_nonneg "1-:2-:3-,4-5 --> 00:00:02,000\n00:00:01,5 --> 00:00:02,000\n".toList
      [⟨3723004, 2000⟩, ⟨1005, 0⟩] (by decide)⟩

/-! ## The session -/

/-- A source without any line that contains the separator gives the empty timeline. -/
theorem parseSrt_no_timing_line (content : List Char)
    (h : ∀ line ∈ getlines content, (find line arrow).isSome = false) :
    parseSrt (some content) = .ok [] := by
  have h17 : ∀ line ∈ getlines content, (find line arrow).isSome = true →
      17 ≤ line.length := by
    intro line hl ha
    rw [h line hl] at ha
    cases ha
  have hf : (getlines content).filter (fun l => (find l arrow).isSome) = [] := by
    rw [List.filter_eq_nil_iff]
    intro line hl
    simp [h line hl]
  show parseLoop (getlines content) [] = .ok []
  rw [parseLoop_ok _ [] h17, hf]
  rfl

/-- With a non-empty timeline the first thing `main` does is to create the engine. -/
theorem main_of_nonempty (file : Option (List Char)) (subtitles : List SubtitleItem)
    (L : Int) (vlcInstOk mediaOk : Bool) (obs : List PlayerObs)
    (h : parseSrt file = .ok subtitles) (hne : subtitles ≠ []) :
    (main file L vlcInstOk mediaOk obs).calls.head? = some .libvlc_new := by
  have hemp : subtitles.isEmpty = false := by
    cases subtitles with
    | nil => exact absurd rfl hne
    | cons a l => rfl
  obtain ⟨r, hr⟩ := mainLoop_isSome L subtitles obs initState
  unfold main
  simp only [h, hemp, Bool.false_eq_true, if_false, hr]
  cases vlcInstOk <;> cases mediaOk <;> cases hx : r.exited <;> simp [Outcome.calls]

/-- C12 (empty timeline aborts the session): a subtitle source that cannot be opened gives
the empty timeline, and so does a source without a timing line; whenever `parseSrt`
returns the empty timeline `main` returns status 1 without a single engine call; when the
timeline is not empty `main` goes on to create the engine. -/
theorem empty_timeline_aborts :
    parseSrt none = .ok [] ∧
    (∀ content : List Char,
      (∀ line ∈ getlines content, (find line arrow).isSome = false) →
      parseSrt (some content) = .ok []) ∧
    (∀ (file : Option (List Char)) (L : Int) (vlcInstOk mediaOk : Bool)
      (obs : List PlayerObs),
      parseSrt file = .ok [] → main file L vlcInstOk mediaOk obs = .returned 1 []) ∧
    (∀ (file : Option (List Char)) (subtitles : List SubtitleItem) (L : Int)
      (vlcInstOk mediaOk : Bool) (obs : List PlayerObs),
      parseSrt file = .ok subtitles → subtitles ≠ [] →
      main file L vlcInstOk mediaOk obs ≠ .returned 1 [] ∧
      (main file L vlcInstOk mediaOk obs).calls.head? = some .libvlc_new) := by
  refine ⟨rfl, parseSrt_no_timing_line, ?_, ?_⟩
  · intro file L vlcInstOk mediaOk obs h
    simp [main, h]
  · intro file subtitles L vlcInstOk mediaOk obs h hne
    have hhead := main_of_nonempty file subtitles L vlcInstOk mediaOk obs h hne
    refine ⟨fun heq => ?_, hhead⟩
    rw [heq] at hhead
    simp [Outcome.calls] at hhead

/-- Witness for C12: an unreadable source and a source with captions only end the session
with status 1 and no engine call; a source with one timing line leads to `libvlc_new`. -/
theorem empty_timeline_aborts_witness :
    main none 2 true true (playingAt [2500]) = .returned 1 [] ∧
    main (some "1\nHello\n".toList) 2 true true (playingAt [2500]) = .returned 1 [] ∧
    (main (some "00:00:01,000 --> 00:00:02,000\n".toList) 2 true true
        (playingAt [2500])).calls.head? = some .libvlc_new :=
  ⟨empty_timeline_aborts.2.2.1 none 2 true true (playingAt [2500])
      empty_timeline_aborts.1,
    empty_timeline_aborts.2.2.1 (some "1\nHello\n".toList) 2 true true (playingAt [2500])
      (empty_timeline_aborts.2.1 "1\nHello\n".toList (by decide)),
    (empty_timeline_aborts.2.2.2 (some "00:00:01,000 --> 00:00:02,000\n".toList)
      [⟨1000, 2000⟩] 2 true true (playingAt [2500]) (by decide) (by decide)).2⟩

/-! ## The fate of a seek -/

/-- The new loop variables do not depend on whether the player carries out the seek: they
are those of `tick`. -/
theorem tickSeek_fst (seekAccepted : Bool) (L : Int) (seg : SubtitleItem) (t : Int)
    (st : LoopState) : (tickSeek seekAccepted L seg t st).1 = (tick L seg t st).1 := by
  unfold tickSeek tick
  split_ifs <;> rfl

/-- C13, the claim fails as stated: limit 2, entry `[1000, 2000]`, position 2500; the seek
is rejected and the repeat counter is 1 afterwards, not 0. -/
theorem failed_seek_counterexample :
    ¬ (∀ (L : Int) (seg : SubtitleItem) (t : Int) (st : LoopState),
        t > seg.endTimeMs → L > 0 → st.currentRepeat < L →
        (tickSeek false L seg t st).1 = st) ∧
    tickSeek false 2 ⟨1000, 2000⟩ 2500 ⟨0, 0⟩ = (⟨0, 1⟩, some (1000, false)) := by
  refine ⟨fun h => ?_, by decide⟩
  have h0 := h 2 ⟨1000, 2000⟩ 2500 ⟨0, 0⟩ (by decide) (by decide) (by decide)
  exact absurd h0 (by decide)

/-- C13 as amended (a failed seek is not retried with the same state): when a tick takes
the repeat transition, the loop variables afterwards are the same index and the repeat
counter plus 1, whether the player carries out the seek or not; so they differ from those
before. The next tick at the same position asks for the seek again only while the counter
is still below the limit, and advances otherwise. -/
theorem failed_seek_counts (seekAccepted next : Bool) (L : Int) (seg : SubtitleItem)
    (t : Int) (st : LoopState) (ht : t > seg.endTimeMs) (hL : L > 0)
    (hrep : st.currentRepeat < L) :
    tickSeek seekAccepted L seg t st =
      (⟨st.currentSubtitleIndex, st.currentRepeat + 1⟩,
        some (seg.startTimeMs, seekAccepted)) ∧
    (tickSeek seekAccepted L seg t st).1 ≠ st ∧
    (st.currentRepeat + 1 < L →
      tickSeek next L seg t (tickSeek seekAccepted L seg t st).1 =
        (⟨st.currentSubtitleIndex, st.currentRepeat + 2⟩, some (seg.startTimeMs, next))) ∧
    (¬ st.currentRepeat + 1 < L →
      tickSeek next L seg t (tickSeek seekAccepted L seg t st).1 =
        (⟨st.currentSubtitleIndex + 1, 0⟩, none)) := by
  have h1 : tickSeek seekAccepted L seg t st =
      (⟨st.currentSubtitleIndex, st.currentRepeat + 1⟩,
        some (seg.startTimeMs, seekAccepted)) := by
    simp only [tickSeek, ht, if_true, hL, hrep, and_self]
  refine ⟨h1, ?_, ?_, ?_⟩
  · rw [h1]
    intro he
    have := congrArg LoopState.currentRepeat he
    simp at this
  · intro hlt
    rw [h1]
    simp only [tickSeek, ht, if_true, hL, hlt, and_self, add_assoc]
    norm_num
  · intro hge
    rw [h1]
    simp only [tickSeek, ht, if_true, hL, hge, and_false, if_false]

/-- Witness for C13 as amended: limit 1 and a rejected seek; the counter becomes 1 and
the next tick at the same position advances without another seek. -/
theorem failed_seek_counts_witness :
    tickSeek false 1 ⟨1000, 2000⟩ 2500 ⟨0, 0⟩ = (⟨0, 0 + 1⟩, some (1000, false)) ∧
    tickSeek true 1 ⟨1000, 2000⟩ 2500 (tickSeek false 1 ⟨1000, 2000⟩ 2500 ⟨0, 0⟩).1 =
      (⟨0 + 1, 0⟩, none) :=
  have hw := failed_seek_counts false true 1 ⟨1000, 2000⟩ 2500 ⟨0, 0⟩ (by decide)
    (by decide) (by decide)
  ⟨hw.1, hw.2.2.2 (by decide)⟩

/-! ## A whole session past every end -/

theorem toSizeT_natCast {n : Nat} (h : n < 2 ^ 64) : toSizeT (n : Int) = n := by
  rw [toSizeT_of_nonneg (Int.natCast_nonneg n) (by exact_mod_cast h)]
  simp

theorem seeksOf_append_ticks (t1 t2 : List TickRecord) (s1 s2 : LoopState) (e1 e2 : Bool) :
    seeksOf ⟨t1 ++ t2, s2, e2⟩ = seeksOf ⟨t1, s1, e1⟩ ++ seeksOf ⟨t2, s2, e2⟩ := by
  simp [seeksOf, List.filterMap_append]

theorem filterMap_const_some {α β : Type} (l : List α) (c : β) (f : α → Option β)
    (hf : ∀ a, f a = some c) : l.filterMap f = List.replicate l.length c := by
  induction l with
  | nil => rfl
  | cons a l ih => simp [List.filterMap_cons, hf a, ih, List.replicate_succ]

/-- The visit of one entry when every poll is past its end: `L + 1` ticks, `L` seeks to
its start, then the loop stands at the next index and is still running. -/
theorem visit_run (L : Int) (hL : 0 ≤ L) (subtitles : List SubtitleItem) (seg : SubtitleItem)
    (idx : Int) (hseg : subtitles[toSizeT idx]? = some seg) (positions : List Int)
    (hlen : positions.length = L.toNat + 1) (hpos : ∀ t ∈ positions, t > seg.endTimeMs) :
    ∃ r, mainLoop L subtitles (playingAt positions) ⟨idx, 0⟩ = some r ∧
      r.exited = false ∧ r.final = ⟨idx + 1, 0⟩ ∧ r.ticks.length = L.toNat + 1 ∧
      seeksOf r = List.replicate L.toNat seg.startTimeMs := by
  obtain ⟨r, hr, hticks, hfin, hex⟩ := repeat_run L subtitles seg idx hseg L.toNat 0 positions
    (le_refl _) (by rw [Int.toNat_of_nonneg hL]; simp) hlen hpos
  refine ⟨r, hr, hex, hfin, ?_, ?_⟩
  · have := congrArg List.length hticks
    simpa using this
  · have hmap : seeksOf r = (r.ticks.map (fun x => (x.after, x.seek))).filterMap
        (fun q => q.2) := by
      rw [List.filterMap_map]; rfl
    have hc := filterMap_const_some (List.range L.toNat) seg.startTimeMs
      ((fun q : LoopState × Option Int => q.2) ∘ fun (i : Nat) =>
        ((⟨idx, 0 + (i : Int) + 1⟩ : LoopState), some seg.startTimeMs)) (fun _ => rfl)
    rw [hmap, hticks, List.filterMap_append, List.filterMap_map, hc]
    simp

/-- From the start of the entries `rest` of the timeline, with every poll past every end
and exactly `L + 1` polls per entry, the loop visits every entry and stands at the end of
the timeline. -/
theorem session_run (L : Int) (hL : 0 ≤ L) (subtitles : List SubtitleItem)
    (hsize : subtitles.length < 2 ^ 64) :
    ∀ (rest pre : List SubtitleItem) (positions : List Int), subtitles = pre ++ rest →
      positions.length = rest.length * (L.toNat + 1) →
      (∀ t ∈ positions, ∀ seg ∈ subtitles, t > seg.endTimeMs) →
      ∃ r, mainLoop L subtitles (playingAt positions) ⟨(pre.length : Int), 0⟩ = some r ∧
        r.exited = false ∧ r.final = ⟨(subtitles.length : Int), 0⟩ ∧
        r.ticks.length = rest.length * (L.toNat + 1) ∧
        seeksOf r = rest.flatMap (fun seg => List.replicate L.toNat seg.startTimeMs) := by
  intro rest
  induction rest with
  | nil =>
    intro pre positions hsub hlen _
    have hp : positions = [] := List.length_eq_zero.mp (by simpa using hlen)
    subst hp
    refine ⟨⟨[], ⟨(pre.length : Int), 0⟩, false⟩, rfl, rfl, ?_, by simp, rfl⟩
    simp [hsub]
  | cons seg rest ih =>
    intro pre positions hsub hlen hpos
    have hlen' : positions.length = (L.toNat + 1) + rest.length * (L.toNat + 1) := by
      rw [hlen, List.length_cons]; ring
    have hpre : pre.length < subtitles.length := by
      rw [hsub, List.length_append, List.length_cons]; omega
    have hseg : subtitles[toSizeT (pre.length : Int)]? = some seg := by
      rw [toSizeT_natCast (lt_trans hpre hsize), hsub,
        List.getElem?_append_right (le_refl _)]
      simp
    have hsplit : positions = positions.take (L.toNat + 1) ++ positions.drop (L.toNat + 1) :=
      (List.take_append_drop _ _).symm
    obtain ⟨r1, hr1, hex1, hfin1, hn1, hs1⟩ := visit_run L hL subtitles seg pre.length hseg
      (positions.take (L.toNat + 1)) (by rw [List.length_take]; omega)
      (fun t ht => hpos t (List.mem_of_mem_take ht) seg (by rw [hsub]; simp))
    obtain ⟨r2, hr2, hex2, hfin2, hn2, hs2⟩ := ih (pre ++ [seg])
      (positions.drop (L.toNat + 1)) (by rw [hsub]; simp)
      (by rw [List.length_drop]; omega)
      (fun t ht => hpos t (List.mem_of_mem_drop ht))
    have hcast : (((pre ++ [seg]).length : Nat) : Int) = (pre.length : Int) + 1 := by
      simp
    rw [hcast, ← hfin1] at hr2
    have happ := mainLoop_append L subtitles (playingAt (positions.drop (L.toNat + 1)))
      (playingAt (positions.take (L.toNat + 1))) ⟨(pre.length : Int), 0⟩ r1 hr1 hex1
    rw [hr2] at happ
    refine ⟨⟨r1.ticks ++ r2.ticks, r2.final, r2.exited⟩, ?_, hex2, hfin2, ?_, ?_⟩
    · rw [hsplit, playingAt, List.map_append]
      exact happ
    · simp only [List.length_append, hn1, hn2, List.length_cons]; ring
    · rw [seeksOf_append_ticks r1.ticks r2.ticks r1.final r2.final r1.exited r2.exited]
      show seeksOf r1 ++ seeksOf r2 = _
      rw [hs1, hs2]
      simp [List.flatMap_cons]

theorem length_flatMap_replicate (subtitles : List SubtitleItem) (n : Nat) :
    (subtitles.flatMap (fun seg => List.replicate n seg.startTimeMs)).length
      = subtitles.length * n := by
  induction subtitles with
  | nil => simp
  | cons seg rest ih =>
    rw [List.flatMap_cons, List.length_append, ih, List.length_replicate, List.length_cons]
    ring

/-- C14 (whole-session repeat count): a timeline of `N` entries, a repeat limit `L ≥ 0`,
a player that keeps playing and reports only positions past every `endTimeMs` (more than
`N * (L + 1)` of them, so that the loop condition is evaluated once more): the loop ends
after exactly `N * (L + 1)` ticks with the index `N`, and its seeks are the `startTimeMs`
of each entry `L` times, in timeline order, `N * L` in total. -/
theorem whole_session (L : Int) (hL : 0 ≤ L) (subtitles : List SubtitleItem)
    (hsize : subtitles.length < 2 ^ 31) (positions : List Int)
    (hlen : subtitles.length * (L.toNat + 1) < positions.length)
    (hpos : ∀ t ∈ positions, ∀ seg ∈ subtitles, t > seg.endTimeMs) :
    ∃ r, mainLoop L subtitles (playingAt positions) initState = some r ∧
      r.exited = true ∧
      r.ticks.length = subtitles.length * (L.toNat + 1) ∧
      r.final = ⟨(subtitles.length : Int), 0⟩ ∧
      seeksOf r = subtitles.flatMap (fun seg => List.replicate L.toNat seg.startTimeMs) ∧
      (seeksOf r).length = subtitles.length * L.toNat := by
  have hsize64 : subtitles.length < 2 ^ 64 := lt_trans hsize (by norm_num)
  obtain ⟨r1, hr1, hex1, hfin1, hn1, hs1⟩ := session_run L hL subtitles hsize64 subtitles []
    (positions.take (subtitles.length * (L.toNat + 1))) rfl
    (by rw [List.length_take]; omega)
    (fun t ht => hpos t (List.mem_of_mem_take ht))
  have hdrop : positions.drop (subtitles.length * (L.toNat + 1)) ≠ [] := by
    intro hnil
    have := congrArg List.length hnil
    rw [List.length_drop] at this
    simp at this
    omega
  obtain ⟨p, more, hpm⟩ := List.exists_cons_of_ne_nil hdrop
  have hsplit : positions =
      positions.take (subtitles.length * (L.toNat + 1)) ++ p :: more := by
    rw [← hpm]; exact (List.take_append_drop _ _).symm
  have hcond : loopCond subtitles true r1.final = false := by
    rw [hfin1]
    simp [loopCond, toSizeT_natCast hsize64]
  have hlast : mainLoop L subtitles (playingAt (p :: more)) r1.final
      = some ⟨[], r1.final, true⟩ := by
    simp [playingAt, mainLoop, hcond]
  have happ := mainLoop_append L subtitles (playingAt (p :: more))
    (playingAt (positions.take (subtitles.length * (L.toNat + 1)))) ⟨((0 : Nat) : Int), 0⟩
    r1 hr1 hex1
  rw [hlast] at happ
  refine ⟨⟨r1.ticks ++ [], r1.final, true⟩, ?_, rfl, ?_, hfin1, ?_, ?_⟩
  · rw [hsplit, playingAt, List.map_append]
    exact happ
  · simpa using hn1
  · rw [seeksOf_append_ticks r1.ticks [] r1.final r1.final r1.exited true]
    show seeksOf r1 ++ seeksOf ⟨[], r1.final, true⟩ = _
    rw [hs1]
    simp [seeksOf]
  · rw [seeksOf_append_ticks r1.ticks [] r1.final r1.final r1.exited true]
    show (seeksOf r1 ++ seeksOf ⟨[], r1.final, true⟩).length = _
    rw [hs1, List.length_append, length_flatMap_replicate]
    simp [seeksOf]

/-- Witness for C14: two entries and limit 1; five polls at 5000 give 4 ticks, the seeks
1000 and 3000, and the end of the loop at index 2. -/
theorem whole_session_witness :
    (∃ r, mainLoop 1 [⟨1000, 2000⟩, ⟨3000, 4000⟩]
        (playingAt [5000, 5000, 5000, 5000, 5000]) initState = some r ∧
      r.exited = true ∧
      r.ticks.length = ([⟨1000, 2000⟩, ⟨3000, 4000⟩] : List SubtitleItem).length
        * ((1 : Int).toNat + 1) ∧
      r.final = ⟨(([⟨1000, 2000⟩, ⟨3000, 4000⟩] : List SubtitleItem).length : Int), 0⟩ ∧
      seeksOf r = ([⟨1000, 2000⟩, ⟨3000, 4000⟩] : List SubtitleItem).flatMap
        (fun seg => List.replicate (1 : Int).toNat seg.startTimeMs) ∧
      (seeksOf r).length = ([⟨1000, 2000⟩, ⟨3000, 4000⟩] : List SubtitleItem).length
        * (1 : Int).toNat) ∧
    mainLoop 1 [⟨1000, 2000⟩, ⟨3000, 4000⟩] (playingAt [5000, 5000, 5000, 5000, 5000])
        initState
      = some ⟨[⟨5000, ⟨0, 1⟩, some 1000⟩, ⟨5000, ⟨1, 0⟩, none⟩, ⟨5000, ⟨1, 1⟩, some 3000⟩,
               ⟨5000, ⟨2, 0⟩, none⟩], ⟨2, 0⟩, true⟩ :=
  ⟨whole_session 1 (by decide) [⟨1000, 2000⟩, ⟨3000, 4000⟩] (by decide)
      [5000, 5000, 5000, 5000, 5000] (by decide) (by decide),
    by decide⟩

/-! ## Bounds on the loop variables -/

/-- One tick keeps the repeat counter between 0 and the limit (0 for a limit below 0). -/
theorem tick_repeat_bounds (L : Int) (seg : SubtitleItem) (t : Int) (st : LoopState)
    (h0 : 0 ≤ st.currentRepeat) (h1 : st.currentRepeat ≤ max L 0) :
    0 ≤ (tick L seg t st).1.currentRepeat ∧ (tick L seg t st).1.currentRepeat ≤ max L 0 := by
  unfold tick
  split_ifs with ht hr
  · simp only
    have := le_max_left L 0
    omega
  · simp only
    exact ⟨le_refl _, le_max_right _ _⟩
  · exact ⟨h0, h1⟩

/-- Along a run the repeat counter stays between 0 and the limit, and the seeks made
while the index is `c`, together with the repeats already counted when the run starts at
index `c`, do not exceed the limit; no seek is made at an index the run has left. -/
theorem mainLoop_repeat_bounds (L : Int) (subtitles : List SubtitleItem) (c : Int) :
    ∀ (obs : List PlayerObs) (st : LoopState) (r : LoopResult),
      0 ≤ st.currentRepeat → st.currentRepeat ≤ max L 0 →
      mainLoop L subtitles obs st = some r →
      (∀ k ∈ r.ticks, 0 ≤ k.after.currentRepeat ∧ k.after.currentRepeat ≤ max L 0) ∧
      (0 ≤ r.final.currentRepeat ∧ r.final.currentRepeat ≤ max L 0) ∧
      ((seeksAt c r).length : Int)
        + (if c = st.currentSubtitleIndex then st.currentRepeat else 0) ≤ max L 0 ∧
      (c < st.currentSubtitleIndex → seeksAt c r = []) := by
  intro obs
  induction obs with
  | nil =>
    intro st r h0 h1 h
    simp only [mainLoop, Option.some.injEq] at h
    subst h
    refine ⟨by simp, ⟨h0, h1⟩, ?_, fun _ => rfl⟩
    have hm := le_max_right L 0
    simp only [seeksAt, List.filter_nil, List.filterMap_nil, List.length_nil, Nat.cast_zero,
      zero_add]
    split_ifs <;> omega
  | cons o os ih =>
    intro st r h0 h1 h
    have hm := le_max_right L 0
    by_cases hc : loopCond subtitles o.isPlaying st = true
    · obtain ⟨seg, _, hb⟩ := loopBody_of_loopCond (L := L) o.currentTime hc
      obtain ⟨r0, hr0⟩ := mainLoop_isSome L subtitles os (tick L seg o.currentTime st).1
      simp only [mainLoop, hc, if_true, hb, hr0, Option.some.injEq] at h
      subst h
      obtain ⟨hb0, hb1⟩ := tick_repeat_bounds L seg o.currentTime st h0 h1
      obtain ⟨iht, ihf, ihc, ihl⟩ := ih (tick L seg o.currentTime st).1 r0 hb0 hb1 hr0
      refine ⟨?_, ihf, ?_, ?_⟩
      · intro k hk
        rcases List.mem_cons.mp hk with rfl | hk
        · exact ⟨hb0, hb1⟩
        · exact iht k hk
      · by_cases ht : o.currentTime > seg.endTimeMs
        · by_cases hr : L > 0 ∧ st.currentRepeat < L
          · rw [tick_repeat ht hr.1 hr.2] at ihc ⊢
            simp only [seeksAt, List.filter_cons] at ihc ⊢
            by_cases hci : st.currentSubtitleIndex = c
            · subst hci
              simp only [decide_True, if_true, List.filterMap_cons, List.length_cons,
                Nat.cast_add, Nat.cast_one] at ihc ⊢
              omega
            · have hci' : ¬ c = st.currentSubtitleIndex := fun h => hci h.symm
              simp only [hci, decide_False, Bool.false_eq_true, if_false, hci'] at ihc ⊢
              exact ihc
          · rw [tick_advance ht hr] at ihc ihl ⊢
            simp only [seeksAt, List.filter_cons] at ihc ihl ⊢
            by_cases hci : st.currentSubtitleIndex + 1 = c
            · subst hci
              have hne : ¬ st.currentSubtitleIndex + 1 = st.currentSubtitleIndex := by omega
              simp only [decide_True, if_true, List.filterMap_cons, hne, if_false]
                at ihc ⊢
              simpa using ihc
            · have hci' : ¬ c = st.currentSubtitleIndex + 1 := fun h => hci h.symm
              simp only [hci, decide_False, Bool.false_eq_true, if_false, hci'] at ihc ihl ⊢
              by_cases hcs : c = st.currentSubtitleIndex
              · have hl := ihl (by omega)
                simp only [hcs, if_true] at hl ⊢
                rw [← hcs] at hl ⊢
                rw [hl]
                simp only [List.length_nil, Nat.cast_zero, zero_add]
                exact h1
              · simp only [hcs, if_false]
                exact ihc
        · rw [tick_noop (not_lt.mp ht)] at ihc ⊢
          simp only [seeksAt, List.filter_cons] at ihc ⊢
          by_cases hci : st.currentSubtitleIndex = c
          · simp only [hci, decide_True, if_true, List.filterMap_cons] at ihc ⊢
            exact ihc
          · simp only [hci, decide_False, Bool.false_eq_true, if_false] at ihc ⊢
            exact ihc
      · intro hlt
        have hstep := tick_index_step L seg o.currentTime st
        have hl := ihl (lt_of_lt_of_le hlt hstep.1)
        simp only [seeksAt, List.filter_cons] at hl ⊢
        have hne : ¬ (tick L seg o.currentTime st).1.currentSubtitleIndex = c := by
          have := hstep.1; omega
        simp only [hne, decide_False, Bool.false_eq_true, if_false]
        exact hl
    · simp only [mainLoop, hc, Bool.false_eq_true, if_false, Option.some.injEq] at h
      subst h
      refine ⟨by simp, ⟨h0, h1⟩, ?_, fun _ => rfl⟩
      simp only [seeksAt, List.filter_nil, List.filterMap_nil, List.length_nil, Nat.cast_zero,
        zero_add]
      split_ifs <;> omega

/-- C15 (repeat counter bound): in every run from the initial state the repeat counter
after each tick and at the end is between 0 and `max (limit) 0`; and for every index `c`
the number of seeks made while the index is `c`, that is during the visit of entry `c`,
is at most `max (limit) 0`. -/
theorem repeat_counter_bound (L : Int) (subtitles : List SubtitleItem)
    (obs : List PlayerObs) :
    ∃ r, mainLoop L subtitles obs initState = some r ∧
      (∀ k ∈ r.ticks, 0 ≤ k.after.currentRepeat ∧ k.after.currentRepeat ≤ max L 0) ∧
      (0 ≤ r.final.currentRepeat ∧ r.final.currentRepeat ≤ max L 0) ∧
      (∀ c : Int, ((seeksAt c r).length : Int) ≤ max L 0) := by
  obtain ⟨r, hr⟩ := mainLoop_isSome L subtitles obs initState
  refine ⟨r, hr, ?_, ?_, ?_⟩
  · exact (mainLoop_repeat_bounds L subtitles 0 obs initState r (le_refl _)
      (le_max_right _ _) hr).1
  · exact (mainLoop_repeat_bounds L subtitles 0 obs initState r (le_refl _)
      (le_max_right _ _) hr).2.1
  · intro c
    have h := (mainLoop_repeat_bounds L subtitles c obs initState r (le_refl _)
      (le_max_right _ _) hr).2.2.1
    simp only [initState, ite_self, add_zero] at h
    exact h

/-- Along a run from an index between 0 and the number of entries, the index after each
tick is between 0 and the number of entries. -/
theorem mainLoop_ticks_index_bounds (L : Int) (subtitles : List SubtitleItem)
    (hsize : subtitles.length < 2 ^ 64) :
    ∀ (obs : List PlayerObs) (st : LoopState) (r : LoopResult),
      0 ≤ st.currentSubtitleIndex → st.currentSubtitleIndex ≤ subtitles.length →
      mainLoop L subtitles obs st = some r →
      ∀ k ∈ r.ticks, 0 ≤ k.after.currentSubtitleIndex ∧
        k.after.currentSubtitleIndex ≤ subtitles.length := by
  intro obs
  induction obs with
  | nil =>
    intro st r _ _ h
    simp only [mainLoop, Option.some.injEq] at h
    subst h
    simp
  | cons o os ih =>
    intro st r h0 h1 h
    by_cases hc : loopCond subtitles o.isPlaying st = true
    · obtain ⟨seg, _, hb⟩ := loopBody_of_loopCond (L := L) o.currentTime hc
      obtain ⟨r0, hr0⟩ := mainLoop_isSome L subtitles os (tick L seg o.currentTime st).1
      have hone : mainLoop L subtitles [o] st
          = some ⟨[⟨o.currentTime, (tick L seg o.currentTime st).1,
              (tick L seg o.currentTime st).2⟩], (tick L seg o.currentTime st).1, false⟩ := by
        simp [mainLoop, hc, hb]
      obtain ⟨hn0, hn1⟩ := mainLoop_index_bounds L subtitles hsize [o] st _ h0 h1 hone
      simp only [mainLoop, hc, if_true, hb, hr0, Option.some.injEq] at h
      subst h
      intro k hk
      rcases List.mem_cons.mp hk with rfl | hk
      · exact ⟨hn0, hn1⟩
      · exact ih _ r0 hn0 hn1 hr0 k hk
    · simp only [mainLoop, hc, Bool.false_eq_true, if_false, Option.some.injEq] at h
      subst h
      simp

/-- C16 (index safety): on a timeline of fewer than `2 ^ 31` entries, every run from the
initial state has a result (the out-of-range access is never made), the index after each
tick and at the end is between 0 and the number of entries, and whenever the loop
condition holds in the state reached, the index is a valid index of the timeline and the
body reads the entry at that index. -/
theorem index_safety (L : Int) (subtitles : List SubtitleItem)
    (hsize : subtitles.length < 2 ^ 31) (obs : List PlayerObs) :
    ∃ r, mainLoop L subtitles obs initState = some r ∧
      (∀ k ∈ r.ticks, 0 ≤ k.after.currentSubtitleIndex ∧
        k.after.currentSubtitleIndex ≤ subtitles.length) ∧
      (0 ≤ r.final.currentSubtitleIndex ∧ r.final.currentSubtitleIndex ≤ subtitles.length) ∧
      (∀ o : PlayerObs, loopCond subtitles o.isPlaying r.final = true →
        r.final.currentSubtitleIndex < subtitles.length ∧
        ∃ seg, subtitles[r.final.currentSubtitleIndex.toNat]? = some seg ∧
          loopBody L subtitles o.currentTime r.final
            = some (tick L seg o.currentTime r.final)) := by
  have hsize64 : subtitles.length < 2 ^ 64 := lt_trans hsize (by norm_num)
  obtain ⟨r, hr⟩ := mainLoop_isSome L subtitles obs initState
  have hinit : initState.currentSubtitleIndex ≤ (subtitles.length : Int) := by
    simp [initState]
  obtain ⟨h0, h1⟩ := mainLoop_index_bounds L subtitles hsize64 obs initState r
    (le_refl _) hinit hr
  refine ⟨r, hr, mainLoop_ticks_index_bounds L subtitles hsize64 obs initState r
    (le_refl _) hinit hr, ⟨h0, h1⟩, ?_⟩
  intro o hc
  have h64 : r.final.currentSubtitleIndex < 2 ^ 64 := by
    have : (subtitles.length : Int) < 2 ^ 64 := by exact_mod_cast hsize64
    omega
  obtain ⟨seg, hseg, hb⟩ := loopBody_of_loopCond (L := L) o.currentTime hc
  rw [toSizeT_of_nonneg h0 h64] at hseg
  simp only [loopCond, Bool.and_eq_true, decide_eq_true_eq, toSizeT_of_nonneg h0 h64] at hc
  exact ⟨by omega, seg, hseg, hb⟩

/-- Witness for C16: one entry, limit 1; after the repeat and the advance the index is 1,
the number of entries. -/
theorem index_safety_witness :
    ∃ r, mainLoop 1 [⟨1000, 2000⟩] (playingAt [2500, 2500]) initState = some r ∧
      (∀ k ∈ r.ticks, 0 ≤ k.after.currentSubtitleIndex ∧
        k.after.currentSubtitleIndex ≤ ([⟨1000, 2000⟩] : List SubtitleItem).length) ∧
      (0 ≤ r.final.currentSubtitleIndex ∧
        r.final.currentSubtitleIndex ≤ ([⟨1000, 2000⟩] : List SubtitleItem).length) ∧
      (∀ o : PlayerObs, loopCond [⟨1000, 2000⟩] o.isPlaying r.final = true →
        r.final.currentSubtitleIndex < ([⟨1000, 2000⟩] : List SubtitleItem).length ∧
        ∃ seg, ([⟨1000, 2000⟩] : List SubtitleItem)[r.final.currentSubtitleIndex.toNat]?
            = some seg ∧
          loopBody 1 [⟨1000, 2000⟩] o.currentTime r.final
            = some (tick 1 seg o.currentTime r.final)) :=
  index_safety 1 [⟨1000, 2000⟩] (by decide) (playingAt [2500, 2500])

/-- With a repeat limit of 0 or less a tick is the tick with limit 0. -/
theorem tick_nonpos (L : Int) (hL : L ≤ 0) (seg : SubtitleItem) (t : Int) (st : LoopState) :
    tick L seg t st = tick 0 seg t st := by
  have h1 : ¬ (L > 0 ∧ st.currentRepeat < L) := fun h => by omega
  have h2 : ¬ ((0 : Int) > 0 ∧ st.currentRepeat < 0) := fun h => by omega
  simp only [tick, h1, h2]

theorem mainLoop_nonpos (L : Int) (hL : L ≤ 0) (subtitles : List SubtitleItem) :
    ∀ (obs : List PlayerObs) (st : LoopState),
      mainLoop L subtitles obs st = mainLoop 0 subtitles obs st := by
  intro obs
  induction obs with
  | nil => intro st; rfl
  | cons o os ih =>
    intro st
    by_cases hc : loopCond subtitles o.isPlaying st = true
    · obtain ⟨seg, _, hb⟩ := loopBody_of_loopCond (L := L) o.currentTime hc
      obtain ⟨seg0, _, hb0⟩ := loopBody_of_loopCond (L := 0) o.currentTime hc
      have hseg : seg0 = seg := by simp_all
      subst hseg
      simp only [mainLoop, hc, if_true, hb, hb0, tick_nonpos L hL, ih]
    · simp only [mainLoop, hc, Bool.false_eq_true, if_false]

theorem mainLoop_zero_seeks (subtitles : List SubtitleItem) :
    ∀ (obs : List PlayerObs) (st : LoopState) (r : LoopResult),
      mainLoop 0 subtitles obs st = some r → seeksOf r = [] := by
  intro obs
  induction obs with
  | nil =>
    intro st r h
    simp only [mainLoop, Option.some.injEq] at h
    subst h
    rfl
  | cons o os ih =>
    intro st r h
    by_cases hc : loopCond subtitles o.isPlaying st = true
    · obtain ⟨seg, _, hb⟩ := loopBody_of_loopCond (L := 0) o.currentTime hc
      obtain ⟨r0, hr0⟩ := mainLoop_isSome 0 subtitles os (tick 0 seg o.currentTime st).1
      simp only [mainLoop, hc, if_true, hb, hr0, Option.some.injEq] at h
      subst h
      have := ih _ r0 hr0
      simp only [seeksOf, List.filterMap_cons, tick_zero_seek] at this ⊢
      exact this
    · simp only [mainLoop, hc, Bool.false_eq_true, if_false, Option.some.injEq] at h
      subst h
      rfl

/-- C17 (a negative repeat count behaves as zero): for every repeat limit below 0, every
timeline, every start state and every sequence of player observations, the run of the
loop is the run with limit 0: the same ticks, states and end; and it makes no seek. -/
theorem negative_repeat_as_zero (L : Int) (hL : L < 0) (subtitles : List SubtitleItem)
    (obs : List PlayerObs) (st : LoopState) :
    mainLoop L subtitles obs st = mainLoop 0 subtitles obs st ∧
    ∃ r, mainLoop L subtitles obs st = some r ∧ seeksOf r = [] := by
  have heq := mainLoop_nonpos L hL.le subtitles obs st
  obtain ⟨r, hr⟩ := mainLoop_isSome 0 subtitles obs st
  exact ⟨heq, r, heq.trans hr, mainLoop_zero_seeks subtitles obs st r hr⟩

/-- Witness for C17: limit -3 on one entry; the first tick past the end advances. -/
theorem negative_repeat_as_zero_witness :
    mainLoop (-3) [⟨1000, 2000⟩] (playingAt [500, 2500, 2500]) initState
      = mainLoop 0 [⟨1000, 2000⟩] (playingAt [500, 2500, 2500]) initState ∧
    ∃ r, mainLoop (-3) [⟨1000, 2000⟩] (playingAt [500, 2500, 2500]) initState = some r ∧
      seeksOf r = [] :=
  negative_repeat_as_zero (-3) (by decide) [⟨1000, 2000⟩] (playingAt [500, 2500, 2500])
    initState

end CustomPlayer
